import Mathlib

/-!
Verification development for the smallchat agentic execution engine.

The definitions below are a shallow embedding of the Python sources:
typedefs.py (hook outputs and their combine algebra), session.py
(event-sourced Session log, TrackedString and StringWithCause),
agent.py (Agent.harken, Agent.response, Agent.discuss) and
mini_agent.py (handle_bash_callback).  Pure functions become Lean
functions; the stateful Session is explicit state passing over a
SessionState value; Python None-able fields become Option; fallible
code returns Option or Except.
-/

namespace SmallChat

/-! ## typedefs.py: message content and hook outputs -/

/-- typedefs.py TextMessageContent. -/
structure TextMessageContent where
  text : String
  deriving DecidableEq, Repr

/-- A Python value of type str | list[TextMessageContent] | None, as used by the
additionalContext and additionalContextPre fields. -/
inductive CtxValue where
  | none
  | str (s : String)
  | list (l : List TextMessageContent)
  deriving DecidableEq, Repr

/-- The texts() helper inside UserPromptSubmitHookOutput.combine:
a str becomes a one-element list, None becomes the empty list, a list stays
(an empty list is falsy in Python, and i or [] is again the empty list). -/
def CtxValue.texts : CtxValue → List TextMessageContent
  | .none => []
  | .str s => [⟨s⟩]
  | .list l => l

/-- The Python type Literal["block"] | None is modelled as Option BlockDecision. -/
inductive BlockDecision where
  | block
  deriving DecidableEq, Repr

/-- Python expression "\n".join(filter(None, xs)) where xs holds None-able strings:
filter(None, .) drops None and the empty string (both falsy). -/
def joinSome (xs : List (Option String)) : String :=
  String.intercalate "\n" ((xs.filterMap id).filter (fun s => s ≠ ""))

/-- typedefs.py UserPromptSubmitHookAdditionalOutput. -/
structure UserPromptSubmitHookAdditionalOutput where
  additionalContext : CtxValue := .none
  additionalContextPre : CtxValue := .none
  deriving DecidableEq, Repr

/-- typedefs.py UserPromptSubmitHookOutput. -/
structure UserPromptSubmitHookOutput where
  decision : Option BlockDecision := Option.none
  reason : Option String := Option.none
  continue_ : Bool := true
  stopReason : Option String := Option.none
  suppressOutput : Bool := false
  hookSpecificOutput : UserPromptSubmitHookAdditionalOutput := {}
  deriving DecidableEq, Repr

/-- Packing of a list of contexts back into str | list | None:
None if len is 0, the bare text if len is 1, otherwise the list itself. -/
def packCtx : List TextMessageContent → CtxValue
  | [] => .none
  | [t] => .str t.text
  | ts => .list ts

/-- typedefs.py UserPromptSubmitHookOutput.combine.  Returns the combined
output together with the pre and post additional-context lists. -/
def UserPromptSubmitHookOutput.combine (outputs : List UserPromptSubmitHookOutput) :
    UserPromptSubmitHookOutput × List TextMessageContent × List TextMessageContent :=
  let pre := (outputs.map (fun o => o.hookSpecificOutput.additionalContextPre.texts)).flatten
  let post := (outputs.map (fun o => o.hookSpecificOutput.additionalContext.texts)).flatten
  (⟨if outputs.any (fun o => o.decision.isSome) then some .block else Option.none,
    some (joinSome (outputs.map (fun o => o.reason))),
    outputs.all (fun o => o.continue_),
    some (joinSome (outputs.map (fun o => o.stopReason))),
    outputs.all (fun o => o.suppressOutput),
    ⟨packCtx post, packCtx pre⟩⟩, pre, post)

/-- typedefs.py PostToolUseHookOutput. -/
structure PostToolUseHookOutput where
  continue_ : Bool
  stopReason : Option String := Option.none
  decision : Option BlockDecision
  reason : Option String := Option.none
  deriving DecidableEq, Repr

/-- typedefs.py PostToolUseHookOutput.combine. -/
def PostToolUseHookOutput.combine (outputs : List PostToolUseHookOutput) :
    PostToolUseHookOutput :=
  ⟨outputs.all (fun o => o.continue_),
   some (joinSome (outputs.map (fun o => o.stopReason))),
   if outputs.any (fun o => o.decision.isSome) then some .block else Option.none,
   some (joinSome (outputs.map (fun o => o.reason)))⟩

/-- The Literal["allow","deny","ask"] vocabulary of pre-tool-use permission decisions. -/
inductive PermissionDecision where
  | allow
  | deny
  | ask
  deriving DecidableEq, Repr

/-- The legacy Literal["block","approve"] decisions accepted by pre-tool-use hooks. -/
inductive LegacyDecision where
  | block
  | approve
  deriving DecidableEq, Repr

/-- typedefs.py PreToolUseHookAdditionalOutput. -/
structure PreToolUseHookAdditionalOutput where
  permissionDecision : Option PermissionDecision := Option.none
  permissionDecisionReason : Option String := Option.none
  deriving DecidableEq, Repr

/-- typedefs.py PreToolUseHookOutput. -/
structure PreToolUseHookOutput where
  continue_ : Bool
  stopReason : Option String := Option.none
  suppressOutput : Bool := false
  decision : Option LegacyDecision := Option.none
  reason : Option String := Option.none
  hookSpecificOutput : PreToolUseHookAdditionalOutput := {}
  deriving DecidableEq, Repr

/-- The in-place legacy-field cleanup performed at the top of
PreToolUseHookOutput.combine: a legacy decision of approve (resp. block) is
rewritten to permissionDecision allow (resp. deny) with the legacy reason,
then decision and reason are cleared unconditionally. -/
def PreToolUseHookOutput.normalize (o : PreToolUseHookOutput) : PreToolUseHookOutput :=
  match o.decision with
  | some d =>
      { o with
        decision := Option.none, reason := Option.none,
        hookSpecificOutput :=
          { o.hookSpecificOutput with
            permissionDecision := some (if d = .approve then .allow else .deny),
            permissionDecisionReason := o.reason } }
  | Option.none => { o with decision := Option.none, reason := Option.none }

/-- typedefs.py PreToolUseHookOutput.combine. -/
def PreToolUseHookOutput.combine (outputs : List PreToolUseHookOutput) :
    PreToolUseHookOutput :=
  let outs := outputs.map PreToolUseHookOutput.normalize
  let decisions := outs.map (fun o => o.hookSpecificOutput.permissionDecision)
  let denyReasons := (outs.filter
      (fun o => o.hookSpecificOutput.permissionDecision = some .deny)).map
      (fun o => o.hookSpecificOutput.permissionDecisionReason)
  ⟨outs.all (fun o => o.continue_),
   some (joinSome (outs.map (fun o => o.stopReason))),
   outs.all (fun o => o.suppressOutput),
   Option.none,
   Option.none,
   ⟨if (some PermissionDecision.deny) ∈ decisions then some .deny
    else if (some PermissionDecision.ask) ∈ decisions then some .ask
    else if (some PermissionDecision.allow) ∈ decisions then some .allow
    else Option.none,
    if denyReasons.any (fun r => r.getD "" ≠ "") then some (joinSome denyReasons)
    else Option.none⟩⟩

/-! ## session.py: provenance strings and the event-sourced Session -/

/-- A cause annotation: session.py allows a single message id (possibly of the
form "message_id.tool_call_id") or a list of message ids. -/
inductive Cause where
  | one (id : String)
  | many (ids : List String)
  deriving DecidableEq, Repr

/-- A string in flight is a plain str, a TrackedString (carrying message_id,
session.py line 265) or a StringWithCause (carrying cause, session.py line 272).
The three Python classes are disjoint: TrackedString and StringWithCause both
extend str and neither extends the other. -/
inductive ProvenanceString where
  | plain (s : String)
  | tracked (s : String) (message_id : String)
  | withCause (s : String) (cause : Cause)
  deriving DecidableEq, Repr

/-- Python str(content): the underlying string value. -/
def ProvenanceString.str : ProvenanceString → String
  | .plain s => s
  | .tracked s _ => s
  | .withCause s _ => s

/-- Python expression content.message_id if isinstance(content, TrackedString) else None. -/
def ProvenanceString.substanceOf : ProvenanceString → Option String
  | .tracked _ i => some i
  | _ => Option.none

/-- Python expression content.cause if isinstance(content, StringWithCause) else None. -/
def ProvenanceString.causeOf : ProvenanceString → Option Cause
  | .withCause _ c => some c
  | _ => Option.none

/-- A tool-call request t: t.id, t.function.name, t.function.arguments. -/
structure ToolCallFunction where
  name : String
  arguments : String
  deriving DecidableEq, Repr

/-- A tool-call request as it appears in an assistant turn. -/
structure ToolCall where
  id : String
  function : ToolCallFunction
  deriving DecidableEq, Repr

/-- One line of the event log, after JSON parsing.  Fields that Python leaves
out of the record (Session._write drops None values) are Option.none here. -/
structure LogRecord where
  message_id : String := ""
  event_type : String
  agent : String
  role : Option String := Option.none
  content : Option String := Option.none
  name : Option String := Option.none
  substance : Option String := Option.none
  cause : Option Cause := Option.none
  parent : Option String := Option.none
  language_model : Option String := Option.none
  tool_call : Option String := Option.none
  tool_call_id : Option String := Option.none
  tool_calls : Option (List ToolCall) := Option.none
  deriving DecidableEq, Repr

/-- The mutable Session state that log writes touch: the monotonic message-id
counter and the append-only log (the file's parsed lines). -/
structure SessionState where
  nextMessageId : Nat
  log : List LogRecord
  deriving DecidableEq, Repr

/-- session.py Session._write: assign str(next_message_id) as message_id,
increment the counter, append one record to the log, return the id.
The required-field assertions always hold for the writers modelled here, and
JSON key ordering is cosmetic, so neither is modelled. -/
def SessionState.write (st : SessionState) (rec : LogRecord) : String × SessionState :=
  let msg_id := toString st.nextMessageId
  (msg_id,
   { nextMessageId := st.nextMessageId + 1,
     log := st.log ++ [{ rec with message_id := msg_id }] })

/-- session.py Session.logged_fragment: write a fragment record and return the
content as a TrackedString carrying the new message id. -/
def loggedFragment (aid : String) (st : SessionState) (content : String) (cause : Cause) :
    ProvenanceString × SessionState :=
  let (msg_id, st) := st.write
    { event_type := "fragment", agent := aid, content := some content, cause := some cause }
  (.tracked content msg_id, st)

/-! ## agent.py: the Agent, harken and the response loop -/

/-- A transcript entry as stored in Agent.transcript and replayed by
Session.load (a dict with role plus optional content, tool_calls, name,
tool_call_id keys). -/
structure Msg where
  role : String
  content : Option String := Option.none
  tool_calls : Option (List ToolCall) := Option.none
  tool_call_id : Option String := Option.none
  name : Option String := Option.none
  deriving DecidableEq, Repr

/-- The runtime Agent fields the response loop touches (subagents and hooks are
handled separately by the discuss embedding). -/
structure AgentState where
  language_model : String
  transcript : List Msg
  deriving DecidableEq, Repr

/-- The argument of Agent.harken: either a plain/tracked/caused string (role
defaults to user) or a dict carrying role, content and extra keys. -/
structure HarkenInput where
  role : String
  content : ProvenanceString
  tool_calls : Option (List ToolCall) := Option.none
  tool_call_id : Option String := Option.none
  name : Option String := Option.none
  deriving DecidableEq, Repr

/-- Python harken(input) with a bare string input: role becomes user. -/
def HarkenInput.ofString (s : ProvenanceString) : HarkenInput :=
  { role := "user", content := s }

/-- agent.py Agent.harken: append the entry to the transcript and log it with
substance set when the content is a TrackedString and cause set when it is a
StringWithCause.  aid is session.agent_id of this agent. -/
def Agent.harken (aid : String) (a : AgentState) (st : SessionState) (input : HarkenInput) :
    AgentState × SessionState :=
  let m : Msg :=
    { role := input.role, content := some input.content.str,
      tool_calls := input.tool_calls, tool_call_id := input.tool_call_id, name := input.name }
  let a1 := { a with transcript := a.transcript ++ [m] }
  let ws := st.write
    { event_type := "transcript_entry", agent := aid,
      role := some m.role, content := m.content, tool_calls := m.tool_calls,
      tool_call_id := m.tool_call_id, name := m.name,
      substance := input.content.substanceOf, cause := input.content.causeOf }
  (a1, ws.2)

/-- One completion returned by the language-model oracle: the assistant turn
appended to the transcript (role is assistant under the language-model
contract; tool_calls empty models Python None/empty, both falsy). -/
structure AssistantTurn where
  role : String := "assistant"
  content : String
  tool_calls : List ToolCall := []
  deriving DecidableEq, Repr

/-- One iteration of the agentic loop as seen from outside: the model turn, and
the first problem any attached hook reports when the turn is a terminal
utterance (None when every hook accepts). -/
structure LoopStep where
  turn : AssistantTurn
  verdict : Option String := Option.none
  deriving DecidableEq, Repr

/-- The tool-dispatch oracle standing for World.do_action: given the value of
self._current_tool_call and the request, produce the result string (plain,
tracked or caused) and any Session writes the tool performed. -/
def DoAction : Type :=
  String → ToolCall → SessionState → ProvenanceString × SessionState

/-- agent.py Agent.response, tool-dispatch part: for each tool-call request in
request order, set _current_tool_call to "{msg_id}.{t.id}", run the action,
append the role=tool entry to the transcript, and log it with tool_call=msg_id
and substance/cause from the result type. -/
def runToolCalls (aid : String) (doAction : DoAction) (msg_id : String) :
    List ToolCall → AgentState → SessionState → AgentState × SessionState
  | [], a, st => (a, st)
  | t :: ts, a, st =>
    let ctc := msg_id ++ "." ++ t.id
    let res := doAction ctc t st
    let m : Msg :=
      { role := "tool", content := some res.1.str,
        tool_call_id := some t.id, name := some t.function.name }
    let a1 := { a with transcript := a.transcript ++ [m] }
    let ws := res.2.write
      { event_type := "transcript_entry", agent := aid,
        role := some "tool", content := m.content,
        tool_call_id := some t.id, name := some t.function.name,
        tool_call := some msg_id,
        substance := res.1.substanceOf, cause := res.1.causeOf }
    runToolCalls aid doAction msg_id ts a1 ws.2

/-- agent.py Agent.response, main loop: call the model, append and log the
assistant turn; if it requested tool calls run them and loop; otherwise let the
hooks judge it — on a problem, harken a synthetic <system> user message and
loop, and with no problem return TrackedString(res.content, message_id=msg_id).
The oracle list supplies successive model turns and hook verdicts; when it runs
out, the run is not terminated (Option.none).  Returns the result together with
the final agent, session and unconsumed oracle steps. -/
def respond (aid : String) (doAction : DoAction) :
    List LoopStep → AgentState → SessionState →
    Option (ProvenanceString × AgentState × SessionState × List LoopStep)
  | [], _, _ => Option.none
  | step :: rest, a, st =>
    let res := step.turn
    let tcs : Option (List ToolCall) :=
      if res.tool_calls.isEmpty then Option.none else some res.tool_calls
    let a1 := { a with transcript :=
      a.transcript ++ [{ role := res.role, content := some res.content, tool_calls := tcs }] }
    let ws := st.write
      { event_type := "transcript_entry", agent := aid,
        role := some res.role, content := some res.content, tool_calls := tcs }
    if res.tool_calls.isEmpty then
      match step.verdict with
      | some problem =>
        let hs := Agent.harken aid a1 ws.2
          (HarkenInput.ofString (.plain ("<system>" ++ problem ++ "</system>")))
        respond aid doAction rest hs.1 hs.2
      | Option.none => some (.tracked res.content ws.1, a1, ws.2, rest)
    else
      let ts := runToolCalls aid doAction ws.1 res.tool_calls a1 ws.2
      respond aid doAction rest ts.1 ts.2

/-- agent.py Agent.response entry: harken the input when one is given, then run
the loop. -/
def Agent.response (aid : String) (doAction : DoAction) (steps : List LoopStep)
    (input : Option HarkenInput) (a : AgentState) (st : SessionState) :
    Option (ProvenanceString × AgentState × SessionState × List LoopStep) :=
  match input with
  | some i =>
    let hs := Agent.harken aid a st i
    respond aid doAction steps hs.1 hs.2
  | Option.none => respond aid doAction steps a st

/-! ## Association lists standing for Python dicts (insertion-ordered) -/

/-- Python dict lookup d[k] (None when the key is absent). -/
def alookup {α : Type} : List (String × α) → String → Option α
  | [], _ => Option.none
  | (k, v) :: rest, key => if k = key then some v else alookup rest key

/-- Python dict assignment d[k] = v: overwrite in place when the key exists,
otherwise append at the end (dicts preserve insertion order). -/
def aset {α : Type} : List (String × α) → String → α → List (String × α)
  | [], key, v => [(key, v)]
  | (k, w) :: rest, key, v =>
    if k = key then (k, v) :: rest else (k, w) :: aset rest key v

/-! ## agent.py Agent.discuss -/

/-- A subagent as the discuss embedding sees it: its session agent id, its
runtime state, and its own language-model oracle. -/
structure SubAgent where
  aid : String
  state : AgentState
  steps : List LoopStep
  deriving DecidableEq, Repr

/-- The parent agent running discuss: its agent id, its subagents dict, and the
speakers/listeners attributes (absent before the first discuss call:
Python hasattr checks). -/
structure ParentAgent where
  aid : String
  subagents : List (String × SubAgent)
  speakersAttr : Option (List String) := Option.none
  listenersAttr : Option (List String) := Option.none
  deriving DecidableEq, Repr

/-- Python self.subagents[s].harken(msg): a missing key raises KeyError. -/
def harkenSub (subs : List (String × SubAgent)) (s : String) (input : HarkenInput)
    (st : SessionState) : Except String (List (String × SubAgent) × SessionState) :=
  match alookup subs s with
  | some sa =>
    let hs := Agent.harken sa.aid sa.state st input
    .ok (aset subs s { sa with state := hs.1 }, hs.2)
  | Option.none => .error ("KeyError: " ++ s)

/-- Broadcast one message to a list of subagents in order, as in the two
for-loops of Agent.discuss. -/
def harkenRound (input : ProvenanceString) :
    List String → List (String × SubAgent) → SessionState →
    Except String (List (String × SubAgent) × SessionState)
  | [], subs, st => .ok (subs, st)
  | s :: rest, subs, st => do
    let r ← harkenSub subs s (HarkenInput.ofString input) st
    harkenRound input rest r.1 r.2

/-- agent.py Agent.discuss, multi-speaker round: each speaker in list order
responds; its reply, prefixed "[name]: " and still tracked by the reply's
message id, is harkened to every other participant before the next speaker
responds; the (string, message_id) pairs are accumulated in order. -/
def speakersTurn (doAction : DoAction) (everyone : List String) :
    List String → List (String × SubAgent) → SessionState → List (String × String) →
    Except String (List (String × String) × List (String × SubAgent) × SessionState)
  | [], subs, st, acc => .ok (acc, subs, st)
  | s :: rest, subs, st, acc =>
    match alookup subs s with
    | Option.none => .error ("KeyError: " ++ s)
    | some sa =>
      match respond sa.aid doAction sa.steps sa.state st with
      | Option.none => .error "model oracle exhausted"
      | some (r, a1, st1, left) =>
        match r with
        | .tracked c i => do
          let subs1 := aset subs s { sa with state := a1, steps := left }
          let msg := ProvenanceString.tracked ("[" ++ s ++ "]: " ++ c) i
          let hr ← harkenRound msg (everyone.filter (fun t => t ≠ s)) subs1 st1
          speakersTurn doAction everyone rest hr.1 hr.2 (acc ++ [("[" ++ s ++ "]: " ++ c, i)])
        | _ => .error "AttributeError: message_id"

/-- agent.py Agent.discuss.  ctc is self._current_tool_call.  Raised KeyError
and ValueError become Except.error with the Python message; a reply that is not
a TrackedString, or an exhausted model oracle, also surface as errors. -/
def Agent.discuss (p : ParentAgent) (ctc : String) (doAction : DoAction) (st : SessionState)
    (prompt : Option String) (speakers listeners : Option (List String)) :
    Except String (ProvenanceString × ParentAgent × SessionState) := do
  let names := p.subagents.map Prod.fst
  let speakers0 :=
    match p.speakersAttr with
    | some sp => sp.filter (fun s => decide (s ∈ names))
    | Option.none => names
  let speakers1 ←
    match speakers with
    | some sp =>
      match sp.find? (fun s => decide (s ∉ names)) with
      | some s => Except.error ("No subagent has name: " ++ s)
      | Option.none => Except.ok sp
    | Option.none => Except.ok speakers0
  if speakers1.isEmpty then
    if names.isEmpty then
      Except.error "No subagents available. Use the Task tool to create a subagent."
    else
      Except.error ("No speakers specified. Available speakers: [" ++
        String.intercalate ", " (names.map (fun n => "\"" ++ n ++ "\"")) ++ "]")
  else do
    let listeners0 :=
      match p.listenersAttr with
      | some ls => ls.filter (fun s => decide (s ∈ names))
      | Option.none => []
    let listeners1 ←
      match listeners with
      | some ls =>
        match ls.find? (fun s => decide (s ∉ names)) with
        | some s => Except.error ("No subagent has name: " ++ s)
        | Option.none => Except.ok (ls.filter (fun s => decide (s ∉ speakers1)))
      | Option.none => Except.ok listeners0
    let sent ←
      match prompt with
      | some pr =>
        let fr := loggedFragment p.aid st pr (Cause.one ctc)
        harkenRound fr.1 (speakers1 ++ listeners1) p.subagents fr.2
      | Option.none => Except.ok (p.subagents, st)
    match speakers1, listeners1 with
    | [s0], [] =>
      match alookup sent.1 s0 with
      | Option.none => Except.error ("KeyError: " ++ s0)
      | some sa =>
        match respond sa.aid doAction sa.steps sa.state sent.2 with
        | Option.none => Except.error "model oracle exhausted"
        | some (r, a1, st1, left) =>
          match r with
          | .tracked c i =>
            Except.ok (.withCause c (.many [i]),
              { p with subagents := aset sent.1 s0 { sa with state := a1, steps := left },
                       speakersAttr := some speakers1, listenersAttr := some listeners1 },
              st1)
          | _ => Except.error "AttributeError: message_id"
    | sp, ls => do
      let r ← speakersTurn doAction (sp ++ ls) sp sent.1 sent.2 []
      Except.ok (.withCause (String.intercalate "\n\n" (r.1.map Prod.fst))
          (.many (r.1.map Prod.snd)),
        { p with subagents := r.2.1,
                 speakersAttr := some speakers1, listenersAttr := some listeners1 },
        r.2.2)

/-! ## mini_agent.py handle_bash_callback -/

/-- Python string slicing s[:n] on code points. -/
def pyTake (s : String) (n : Nat) : String :=
  String.mk (s.toList.take n)

/-- mini_agent.py MAX_OUTPUT inside handle_bash_callback. -/
def MAX_OUTPUT : Nat := 30000

/-- The loop of read_stream: successive chunks returned by stream.read(8192)
are appended while the previous chunk was non-empty (an empty chunk means
end of stream, also modelled by the end of the list) and the parts collected so
far stay under MAX_OUTPUT characters. -/
def readStreamParts : List String → List String → List String
  | [], parts => parts
  | c :: rest, parts =>
    if c ≠ "" ∧ (parts.map String.length).sum < MAX_OUTPUT then
      readStreamParts rest (parts ++ [c])
    else parts

/-- mini_agent.py read_stream: join the collected parts and cap the decoded
text at MAX_OUTPUT characters. -/
def read_stream (chunks : List String) : String :=
  pyTake (String.join (readStreamParts chunks [])) MAX_OUTPUT

/-- The exit of the subprocess: its exit code, or a timeout of asyncio.wait_for. -/
inductive BashExit where
  | code (n : Int)
  | timeout
  deriving DecidableEq, Repr

/-- typedefs.py BashCallback (command and timeout).  The float timeout is
modelled in tenths of a second, which is exact for the values the format
string prints. -/
structure BashCallback where
  command : String
  timeoutTenths : Nat
  deriving DecidableEq, Repr

/-- Python formatting {t:0.1f} for a non-negative value given in tenths. -/
def formatTenths (tenths : Nat) : String :=
  toString (tenths / 10) ++ "." ++ toString (tenths % 10)

/-- mini_agent.py handle_bash_callback, outcome part: after the subprocess
finishes or times out, gather the two captured streams and build the
(is_success, text) result.  On timeout the text is the timeout message then
stderr then stdout; on exit code 0 it is stdout then stderr; on a non-zero
exit code it is stderr then stdout. -/
def handle_bash_callback (cb : BashCallback) (exit : BashExit)
    (stdoutChunks stderrChunks : List String) : Bool × String :=
  let stdout := read_stream stdoutChunks
  let stderr := read_stream stderrChunks
  match exit with
  | .timeout =>
    (false, "Command timed out after " ++ formatTenths cb.timeoutTenths ++ "s\n"
      ++ stderr ++ "\n" ++ stdout)
  | .code 0 => (true, stdout ++ "\n" ++ stderr)
  | .code _ => (false, stderr ++ "\n" ++ stdout)

/-! ## session.py Session._make_agent_id -/

/-- Python str.strip applied with the single character _: drop leading and
trailing underscores. -/
def stripUnderscores (s : String) : String :=
  String.mk (((s.toList.dropWhile (fun c => c = '_')).reverse.dropWhile
    (fun c => c = '_')).reverse)

/-- The base id built by Session._make_agent_id: lowercase the name, keep
alphanumerics and underscores, replace every other character by an underscore,
then strip leading and trailing underscores. -/
def sanitizeBaseName (base_name : String) : String :=
  stripUnderscores (String.mk (base_name.toList.map
    (fun c0 => let c := c0.toLower; if c.isAlphanum ∨ c = '_' then c else '_')))

/-- The while loop of Session._make_agent_id, trying base1, base2, ... in
order.  The Python loop is unbounded; the fuel given below is proved
sufficient, so the fuel-exhausted branch is never taken on the calls made
by make_agent_id. -/
def makeAgentIdLoop (used : List String) (base : String) : Nat → Nat → String
  | 0, i => base ++ toString i
  | fuel + 1, i =>
    let cand := base ++ toString i
    if cand ∈ used then makeAgentIdLoop used base fuel (i + 1) else cand

/-- session.py Session._make_agent_id: used is self.agent_id.values(), the ids
already assigned in this session (which always include "user"). -/
def make_agent_id (used : List String) (base_name : String) : String :=
  let base := sanitizeBaseName base_name
  if base ∈ used then makeAgentIdLoop used base (used.length + 1) 1 else base

/-! ## Decimal digits helpers (for reasoning about Nat.repr) -/

/-- Decimal digit characters of n, most significant first: the specification
of what Nat.toDigitsCore computes at base 10. -/
def natDigits (n : Nat) : List Char :=
  if _h : n < 10 then [Nat.digitChar n]
  else natDigits (n / 10) ++ [Nat.digitChar (n % 10)]
  decreasing_by
    exact Nat.div_lt_self (by omega) (by omega)

/-- Decode a list of decimal digit characters back to the number. -/
def undigit (l : List Char) : Nat :=
  l.foldl (fun a c => 10 * a + (c.toNat - 48)) 0

/-! ## session.py Session.load -/

/-- Python str.isdigit restricted to ASCII digits: non-empty and all digits. -/
def isDigitString (s : String) : Bool :=
  !s.toList.isEmpty && s.toList.all (fun c => c.isDigit)

/-- Session.AgentSpec, with subagents as a name-to-agent-id dict: the final
Python step turns ids into object references, which this arena representation
carries as ids. -/
structure AgentSpec where
  language_model : String
  transcript : List Msg
  subagents : List (String × String)
  deriving DecidableEq, Repr

/-- The loop state of Session.load: the agentspec dict, the interlocutor id
(set by every agent_created with parent "user") and the running maximum
message id (an int starting at -1). -/
structure LoadState where
  agentspec : List (String × AgentSpec)
  interlocutorId : Option String
  maxMessageId : Int
  deriving DecidableEq, Repr

/-- One iteration of the replay loop of Session.load.  A record missing a
field the loop reads, an unknown event_type, or a reference to an agent that
was never created, crashes the load (Option.none), as the source intends for a
malformed log. -/
def loadEvent (s : LoadState) (event : LogRecord) : Option LoadState :=
  let m := if isDigitString event.message_id
    then max s.maxMessageId (undigit event.message_id.toList : Int) else s.maxMessageId
  if event.event_type = "agent_created" then
    match event.language_model, event.name, event.parent with
    | some lm, some name, some parentId =>
      let a : AgentSpec := ⟨lm, [], []⟩
      let spec := aset s.agentspec event.agent a
      if parentId = "user" then
        some ⟨spec, some event.agent, m⟩
      else
        match alookup spec parentId with
        | some pspec =>
          some ⟨aset spec parentId
            { pspec with subagents := aset pspec.subagents name event.agent },
            s.interlocutorId, m⟩
        | Option.none => Option.none
    | _, _, _ => Option.none
  else if event.event_type = "transcript_entry" then
    match event.role with
    | some role =>
      match alookup s.agentspec event.agent with
      | some aspec =>
        let msg : Msg := ⟨role, event.content, event.tool_calls, event.tool_call_id,
          event.name⟩
        some ⟨aset s.agentspec event.agent
          { aspec with transcript := aspec.transcript ++ [msg] },
          s.interlocutorId, m⟩
      | Option.none => Option.none
    | Option.none => Option.none
  else if event.event_type = "fragment" then
    some ⟨s.agentspec, s.interlocutorId, m⟩
  else Option.none

/-- The reconstructed state Session.load returns: the agent graph (all agents
in creation order, each with language model, transcript and subagent links),
the interlocutor, and next_message_id = max_message_id + 1. -/
structure LoadResult where
  agents : List (String × AgentSpec)
  interlocutor : String
  nextMessageId : Int
  deriving DecidableEq, Repr

/-- session.py Session.load: replay every line in file order, then restore the
state.  Accessing agents[interlocutor_id] with interlocutor_id still None (an
empty or rootless log) is a KeyError, hence Option.none. -/
def Session.load (log : List LogRecord) : Option LoadResult := do
  let final ← log.foldlM loadEvent ⟨[], Option.none, -1⟩
  let interId ← final.interlocutorId
  let _ ← alookup final.agentspec interId
  some ⟨final.agentspec, interId, final.maxMessageId + 1⟩

/-! ## Well-formed logs and serialization (the round-trip property) -/

/-- The per-event check of wellFormedLog: the state lists every created agent
with the subagent names it has linked so far, plus whether the root (the
agent created with parent "user") has been seen. -/
structure WfSt where
  created : List (String × List String)
  hasRoot : Bool
  deriving DecidableEq, Repr

/-- Modelled from the spec: one step of the well-formedness check for event
logs as this engine writes them (spec sections 3 and 6).  Message ids are
decimal digits; an agent_created event carries language_model, name and
parent, a fresh agent id (never "user", never reused), a parent that already
exists, a subagent name not already linked under that parent (Agent.task
raises on duplicate names), and parent "user" exactly once (the session's
primary agent); a transcript_entry carries a role and refers to a created
agent. -/
def wfEvent (s : WfSt) (e : LogRecord) : Option WfSt :=
  if ¬ isDigitString e.message_id then Option.none
  else if e.event_type = "agent_created" then
    match e.language_model, e.name, e.parent with
    | some _, some name, some parent =>
      if e.agent = "user" ∨ (alookup s.created e.agent).isSome then Option.none
      else if parent = "user" then
        if s.hasRoot then Option.none
        else some ⟨s.created ++ [(e.agent, [])], true⟩
      else
        match alookup s.created parent with
        | some pnames =>
          if name ∈ pnames then Option.none
          else some ⟨aset s.created parent (pnames ++ [name]) ++ [(e.agent, [])], s.hasRoot⟩
        | Option.none => Option.none
    | _, _, _ => Option.none
  else if e.event_type = "transcript_entry" then
    match e.role with
    | some _ => if (alookup s.created e.agent).isSome then some s else Option.none
    | Option.none => Option.none
  else if e.event_type = "fragment" then some s
  else Option.none

/-- Modelled from the spec: a well-formed event log is one every event of
which passes wfEvent and which has a root agent (the interlocutor). -/
def wellFormedLog (log : List LogRecord) : Bool :=
  match log.foldlM wfEvent ⟨[], false⟩ with
  | some s => s.hasRoot
  | Option.none => false

/-- Session._write applied to each record in turn: the list of assigned
message ids and the final session state. -/
def writeMany (st : SessionState) : List LogRecord → List String × SessionState
  | [] => ([], st)
  | r :: rs =>
    let w := st.write r
    let rest := writeMany w.2 rs
    (w.1 :: rest.1, rest.2)

/-- The (parent id, subagent name) under which an agent is linked in the
reconstructed graph, if any. -/
def parentLinkOf (agents : List (String × AgentSpec)) (aid : String) :
    Option (String × String) :=
  agents.findSome? (fun pa =>
    (pa.2.subagents.find? (fun na => decide (na.2 = aid))).map (fun na => (pa.1, na.1)))

/-- The agent_created record serialization emits for one agent: the
interlocutor is re-created under parent "user" (its original name is not
retained by load, and replay ignores it, so its id stands in); every other
agent is re-created under the first parent and name that link it.  The cause
of a creation record is ignored by replay. -/
def creationRec (agents : List (String × AgentSpec)) (interloc : String)
    (pa : String × AgentSpec) : LogRecord :=
  let pn := if pa.1 = interloc then ("user", pa.1)
    else (parentLinkOf agents pa.1).getD ("user", pa.1)
  { event_type := "agent_created", agent := pa.1, name := some pn.2,
    parent := some pn.1, language_model := some pa.2.language_model,
    cause := some (.one "user") }

/-- The transcript_entry record serialization emits for one transcript
message of one agent. -/
def entryRec (aid : String) (m : Msg) : LogRecord :=
  { event_type := "transcript_entry", agent := aid, role := some m.role,
    content := m.content, tool_calls := m.tool_calls,
    tool_call_id := m.tool_call_id, name := m.name }

/-- One agent_created record per agent, in creation order. -/
def serializeCreations (agents : List (String × AgentSpec)) (interloc : String) :
    List LogRecord :=
  agents.map (creationRec agents interloc)

/-- Every transcript entry of every agent, grouped by agent in creation
order. -/
def serializeEntries (agents : List (String × AgentSpec)) : List LogRecord :=
  (agents.map (fun pa => pa.2.transcript.map (entryRec pa.1))).flatten

/-- Modelled from the spec: the serialize step of the round-trip property
(spec section 8), not present as code in the repository.  The reconstructed
graph is re-emitted through Session._write: one agent_created record per agent
in creation order, then every transcript entry. -/
def serialize (res : LoadResult) : List LogRecord :=
  (writeMany ⟨0, []⟩
    (serializeCreations res.agents res.interlocutor
      ++ serializeEntries res.agents)).2.log

/-- The two components of a LoadState the reconstructed graph consists of:
the agentspec dict and the interlocutor. -/
def graphOf (s : LoadState) : List (String × AgentSpec) × Option String :=
  (s.agentspec, s.interlocutorId)

/-- The keys of an agent dict. -/
def keysOf (agents : List (String × AgentSpec)) : List String :=
  agents.map Prod.fst

/-- The same agent dict with every transcript emptied: the state replaying
the creation records alone rebuilds. -/
def emptyT (agents : List (String × AgentSpec)) : List (String × AgentSpec) :=
  agents.map (fun pa => (pa.1, { pa.2 with transcript := [] }))

/-- Two log records that agree except possibly on message_id (the replay
reads message_id only for the counter, never for the graph). -/
def SameGraphRec (r r2 : LogRecord) : Prop :=
  r = { r2 with message_id := r.message_id }

/-- The invariant tying the well-formedness check state to the replay state
on every reachable prefix of a well-formed log: the checker's created-agents
list mirrors the agent dict and its link names; keys are distinct; links
point at existing agents; and once the root exists, the interlocutor is a
key and replaying the serialized creation records from scratch rebuilds
exactly this graph with empty transcripts. -/
def ReachInv (w : WfSt) (s : LoadState) : Prop :=
  List.Forall₂ (fun (wc : String × List String) (pa : String × AgentSpec) =>
      wc.1 = pa.1 ∧ wc.2 = pa.2.subagents.map Prod.fst) w.created s.agentspec
  ∧ (keysOf s.agentspec).Nodup
  ∧ "user" ∉ keysOf s.agentspec
  ∧ (∀ pa ∈ s.agentspec, ∀ na ∈ pa.2.subagents, na.2 ∈ keysOf s.agentspec)
  ∧ (match s.interlocutorId with
     | Option.none => w.hasRoot = false ∧ s.agentspec = []
     | some i => w.hasRoot = true ∧ i ∈ keysOf s.agentspec
         ∧ Option.map graphOf
             (List.foldlM loadEvent (⟨[], Option.none, -1⟩ : LoadState)
               (serializeCreations s.agentspec i))
           = some (emptyT s.agentspec, some i))

/-! ## Theorems -/

/-- Normalization of legacy pre-tool-use fields leaves the continue flag alone. -/
theorem PreToolUseHookOutput.normalize_continue (o : PreToolUseHookOutput) :
    (PreToolUseHookOutput.normalize o).continue_ = o.continue_ := by
  unfold PreToolUseHookOutput.normalize
  cases o.decision <;> rfl

/-- C4: at each of the three extension points (prompt submit, post tool use,
pre tool use), if any one hook output blocks or denies then the combined
output blocks or denies regardless of the other outputs, and the combined
continue flag is the AND of all hooks' continue flags. -/
theorem claim_C4_any_block_wins_continue_is_and
    (us : List UserPromptSubmitHookOutput) (ps : List PostToolUseHookOutput)
    (prs : List PreToolUseHookOutput)
    (hu : ∃ o ∈ us, o.decision.isSome)
    (hp : ∃ o ∈ ps, o.decision.isSome)
    (hpre : ∃ o ∈ prs,
      (PreToolUseHookOutput.normalize o).hookSpecificOutput.permissionDecision
        = some .deny) :
    (UserPromptSubmitHookOutput.combine us).1.decision = some .block
    ∧ (PostToolUseHookOutput.combine ps).decision = some .block
    ∧ (PreToolUseHookOutput.combine prs).hookSpecificOutput.permissionDecision
        = some .deny
    ∧ (UserPromptSubmitHookOutput.combine us).1.continue_
        = us.all (fun o => o.continue_)
    ∧ (PostToolUseHookOutput.combine ps).continue_ = ps.all (fun o => o.continue_)
    ∧ (PreToolUseHookOutput.combine prs).continue_
        = prs.all (fun o => o.continue_) := by
  obtain ⟨ou, hou, hu⟩ := hu
  obtain ⟨op, hop, hp⟩ := hp
  obtain ⟨opre, hopre, hpre⟩ := hpre
  refine ⟨?_, ?_, ?_, ?_, ?_, ?_⟩
  · simp only [UserPromptSubmitHookOutput.combine]
    rw [if_pos (List.any_eq_true.2 ⟨ou, hou, hu⟩)]
  · simp only [PostToolUseHookOutput.combine]
    rw [if_pos (List.any_eq_true.2 ⟨op, hop, hp⟩)]
  · simp only [PreToolUseHookOutput.combine]
    rw [if_pos]
    exact List.mem_map.2 ⟨PreToolUseHookOutput.normalize opre,
      List.mem_map.2 ⟨opre, hopre, rfl⟩, hpre⟩
  · rfl
  · rfl
  · simp only [PreToolUseHookOutput.combine, List.all_map]
    congr 1
    funext o
    exact PreToolUseHookOutput.normalize_continue o

/-- Witness for C4 at concrete one-hook lists. -/
theorem claim_C4_witness :
    (UserPromptSubmitHookOutput.combine [{ decision := some .block, continue_ := false }]).1.decision
        = some .block
    ∧ (PostToolUseHookOutput.combine
        [{ continue_ := true, decision := some .block }]).decision = some .block
    ∧ (PreToolUseHookOutput.combine
        [{ continue_ := true, decision := some .block, reason := some "no" }]).hookSpecificOutput.permissionDecision
        = some .deny := by
  have h := claim_C4_any_block_wins_continue_is_and
    [{ decision := some .block, continue_ := false }]
    [{ continue_ := true, decision := some .block }]
    [{ continue_ := true, decision := some .block, reason := some "no" }]
    (by decide) (by decide) (by decide)
  exact ⟨h.1, h.2.1, h.2.2.1⟩

/-- C5: the combined pre-tool-use permission decision is the most restrictive
one present under the priority deny, then ask, then allow: deny if any hook
(after legacy normalization) decided deny, else ask if any decided ask, else
allow if any decided allow. -/
theorem claim_C5_permission_priority (outs : List PreToolUseHookOutput) :
    ((∃ o ∈ outs,
        (PreToolUseHookOutput.normalize o).hookSpecificOutput.permissionDecision
          = some .deny) →
      (PreToolUseHookOutput.combine outs).hookSpecificOutput.permissionDecision
        = some .deny)
    ∧ ((¬ ∃ o ∈ outs,
        (PreToolUseHookOutput.normalize o).hookSpecificOutput.permissionDecision
          = some .deny) →
       (∃ o ∈ outs,
        (PreToolUseHookOutput.normalize o).hookSpecificOutput.permissionDecision
          = some .ask) →
      (PreToolUseHookOutput.combine outs).hookSpecificOutput.permissionDecision
        = some .ask)
    ∧ ((¬ ∃ o ∈ outs,
        (PreToolUseHookOutput.normalize o).hookSpecificOutput.permissionDecision
          = some .deny) →
       (¬ ∃ o ∈ outs,
        (PreToolUseHookOutput.normalize o).hookSpecificOutput.permissionDecision
          = some .ask) →
       (∃ o ∈ outs,
        (PreToolUseHookOutput.normalize o).hookSpecificOutput.permissionDecision
          = some .allow) →
      (PreToolUseHookOutput.combine outs).hookSpecificOutput.permissionDecision
        = some .allow) := by
  have hmem : ∀ d : PermissionDecision,
      ((some d) ∈ (outs.map PreToolUseHookOutput.normalize).map
          (fun o => o.hookSpecificOutput.permissionDecision))
        ↔ ∃ o ∈ outs,
          (PreToolUseHookOutput.normalize o).hookSpecificOutput.permissionDecision
            = some d := by
    intro d
    simp [List.mem_map, eq_comm]
  refine ⟨?_, ?_, ?_⟩
  · intro hd
    simp only [PreToolUseHookOutput.combine]
    rw [if_pos ((hmem .deny).2 hd)]
  · intro hnd ha
    simp only [PreToolUseHookOutput.combine]
    rw [if_neg (fun h => hnd ((hmem .deny).1 h)), if_pos ((hmem .ask).2 ha)]
  · intro hnd hna hA
    simp only [PreToolUseHookOutput.combine]
    rw [if_neg (fun h => hnd ((hmem .deny).1 h)),
      if_neg (fun h => hna ((hmem .ask).1 h)), if_pos ((hmem .allow).2 hA)]

/-- Witness for C5: one ask hook and one allow hook combine to ask. -/
theorem claim_C5_witness :
    (PreToolUseHookOutput.combine
      [{ continue_ := true,
         hookSpecificOutput := { permissionDecision := some .ask } },
       { continue_ := true,
         hookSpecificOutput := { permissionDecision := some .allow } }]).hookSpecificOutput.permissionDecision
      = some .ask :=
  (claim_C5_permission_priority
    [{ continue_ := true,
       hookSpecificOutput := { permissionDecision := some .ask } },
     { continue_ := true,
       hookSpecificOutput := { permissionDecision := some .allow } }]).2.1
    (by decide) (by decide)

/-- C6: injected context texts concatenate in hook-registration order; two
hooks injecting "A" then "B" combine to the ordered list containing "A" and
"B", and a single hook injecting "A" combines to the bare string "A". -/
theorem claim_C6_context_join :
    (∀ outs : List UserPromptSubmitHookOutput,
      (UserPromptSubmitHookOutput.combine outs).2.2 =
        (outs.map (fun o => o.hookSpecificOutput.additionalContext.texts)).flatten)
    ∧ (∀ o1 o2 : UserPromptSubmitHookOutput,
      o1.hookSpecificOutput.additionalContext = .str "A" →
      o2.hookSpecificOutput.additionalContext = .str "B" →
      (UserPromptSubmitHookOutput.combine [o1, o2]).1.hookSpecificOutput.additionalContext
        = .list [⟨"A"⟩, ⟨"B"⟩])
    ∧ (∀ o1 : UserPromptSubmitHookOutput,
      o1.hookSpecificOutput.additionalContext = .str "A" →
      (UserPromptSubmitHookOutput.combine [o1]).1.hookSpecificOutput.additionalContext
        = .str "A") := by
  refine ⟨fun outs => rfl, ?_, ?_⟩
  · intro o1 o2 h1 h2
    simp [UserPromptSubmitHookOutput.combine, h1, h2, CtxValue.texts, packCtx]
  · intro o1 h1
    simp [UserPromptSubmitHookOutput.combine, h1, CtxValue.texts, packCtx]

/-- Witness for C6 at concrete hook outputs. -/
theorem claim_C6_witness :
    (UserPromptSubmitHookOutput.combine
      [{ hookSpecificOutput := { additionalContext := .str "A" } },
       { hookSpecificOutput := { additionalContext := .str "B" } }]).1.hookSpecificOutput.additionalContext
      = .list [⟨"A"⟩, ⟨"B"⟩]
    ∧ (UserPromptSubmitHookOutput.combine
      [{ hookSpecificOutput := { additionalContext := .str "A" } }]).1.hookSpecificOutput.additionalContext
      = .str "A" :=
  ⟨claim_C6_context_join.2.1 _ _ rfl rfl, claim_C6_context_join.2.2 _ rfl⟩

/-- Membership in the log after one Session._write. -/
theorem mem_write_log (st : SessionState) (r q : LogRecord) :
    q ∈ ((st.write r).2).log ↔
      q ∈ st.log ∨ q = { r with message_id := toString st.nextMessageId } := by
  simp [SessionState.write]

/-- A ProvenanceString never carries both markers: the three classes are
disjoint. -/
theorem ProvenanceString.substance_cause_excl (c : ProvenanceString) :
    c.substanceOf = Option.none ∨ c.causeOf = Option.none := by
  cases c <;> simp [ProvenanceString.substanceOf, ProvenanceString.causeOf]

/-- Every record the tool-dispatch part writes either was already in the log,
was written by the tool action itself, or sets at most one of substance and
cause. -/
theorem runToolCalls_writes (aid : String) (da : DoAction)
    (hda : ∀ ctc t s, ∀ q ∈ ((da ctc t s).2).log,
      q ∈ s.log ∨ q.substance = Option.none ∨ q.cause = Option.none)
    (mid : String) :
    ∀ (ts : List ToolCall) (a : AgentState) (st : SessionState),
      ∀ q ∈ ((runToolCalls aid da mid ts a st).2).log,
        q ∈ st.log ∨ q.substance = Option.none ∨ q.cause = Option.none := by
  intro ts
  induction ts with
  | nil => intro a st q hq; exact Or.inl hq
  | cons t rest ih =>
    intro a st q hq
    simp only [runToolCalls] at hq
    rcases ih _ _ _ hq with h | h
    · rw [mem_write_log] at h
      rcases h with h | h
      · rcases hda _ _ _ _ h with h | h
        · exact Or.inl h
        · exact Or.inr h
      · subst h
        rcases ProvenanceString.substance_cause_excl
          (da (mid ++ "." ++ t.id) t st).1 with h | h
        · exact Or.inr (Or.inl h)
        · exact Or.inr (Or.inr h)
    · exact Or.inr h

/-- Every record the response loop writes either was already in the log, was
written by a tool action, or sets at most one of substance and cause. -/
theorem respond_writes (aid : String) (da : DoAction)
    (hda : ∀ ctc t s, ∀ q ∈ ((da ctc t s).2).log,
      q ∈ s.log ∨ q.substance = Option.none ∨ q.cause = Option.none) :
    ∀ (steps : List LoopStep) (a : AgentState) (st : SessionState) r a2 st2 left,
      respond aid da steps a st = some (r, a2, st2, left) →
      ∀ q ∈ st2.log,
        q ∈ st.log ∨ q.substance = Option.none ∨ q.cause = Option.none := by
  intro steps
  induction steps with
  | nil => intro a st r a2 st2 left h; simp [respond] at h
  | cons step rest ih =>
    intro a st r a2 st2 left h q hq
    simp only [respond] at h
    by_cases hemp : step.turn.tool_calls.isEmpty
    · rw [if_pos hemp] at h
      cases hv : step.verdict with
      | some problem =>
        rw [hv] at h
        rcases ih _ _ _ _ _ _ h q hq with h1 | h1
        · simp only [Agent.harken] at h1
          rw [mem_write_log] at h1
          rcases h1 with h1 | h1
          · rw [mem_write_log] at h1
            rcases h1 with h1 | h1
            · exact Or.inl h1
            · subst h1; exact Or.inr (Or.inl rfl)
          · subst h1; exact Or.inr (Or.inl rfl)
        · exact Or.inr h1
      | none =>
        rw [hv] at h
        injection h with h
        injection h with h1 h
        injection h with h2 h
        injection h with h3 h4
        subst h3
        rw [mem_write_log] at hq
        rcases hq with hq | hq
        · exact Or.inl hq
        · subst hq; exact Or.inr (Or.inl rfl)
    · rw [if_neg hemp] at h
      rcases ih _ _ _ _ _ _ h q hq with h1 | h1
      · rcases runToolCalls_writes aid da hda _ _ _ _ q h1 with h2 | h2
        · rw [mem_write_log] at h2
          rcases h2 with h2 | h2
          · exact Or.inl h2
          · subst h2; exact Or.inr (Or.inl rfl)
        · exact Or.inr h2
      · exact Or.inr h1

/-- C3: a string in flight (a ProvenanceString) never carries both a substance
marker and a cause marker; the transcript entry Agent.harken logs sets at most
one of substance and cause; and every record Agent.response appends to the log
likewise sets at most one of the two, provided every record a tool action
itself appends does. -/
theorem claim_C3_substance_cause_exclusive :
    (∀ p : ProvenanceString, p.substanceOf = Option.none ∨ p.causeOf = Option.none)
    ∧ (∀ (aid : String) (a : AgentState) (st : SessionState) (input : HarkenInput),
        ∃ rec, ((Agent.harken aid a st input).2).log = st.log ++ [rec]
          ∧ (rec.substance = Option.none ∨ rec.cause = Option.none))
    ∧ (∀ (aid : String) (da : DoAction) (steps : List LoopStep)
        (input : Option HarkenInput) (a : AgentState) (st : SessionState) r a2 st2 left,
        (∀ ctc t s, ∀ q ∈ ((da ctc t s).2).log,
          q ∈ s.log ∨ q.substance = Option.none ∨ q.cause = Option.none) →
        Agent.response aid da steps input a st = some (r, a2, st2, left) →
        ∀ q ∈ st2.log,
          q ∈ st.log ∨ q.substance = Option.none ∨ q.cause = Option.none) := by
  refine ⟨ProvenanceString.substance_cause_excl, ?_, ?_⟩
  · intro aid a st input
    refine ⟨_, rfl, ?_⟩
    show input.content.substanceOf = Option.none ∨ input.content.causeOf = Option.none
    exact ProvenanceString.substance_cause_excl input.content
  · intro aid da steps input a st r a2 st2 left hda hres q hq
    cases input with
    | none => exact respond_writes aid da hda _ _ _ _ _ _ _ hres q hq
    | some i =>
      rcases respond_writes aid da hda _ _ _ _ _ _ _ hres q hq with h | h
      · simp only [Agent.harken] at h
        rw [mem_write_log] at h
        rcases h with h | h
        · exact Or.inl h
        · subst h
          rcases ProvenanceString.substance_cause_excl i.content with h | h
          · exact Or.inr (Or.inl h)
          · exact Or.inr (Or.inr h)
      · exact Or.inr h

/-- Witness for C3: the exclusivity at a tracked string and at a concrete
one-turn run. -/
theorem claim_C3_witness :
    ((ProvenanceString.tracked "hello" "7").substanceOf = Option.none
      ∨ (ProvenanceString.tracked "hello" "7").causeOf = Option.none)
    ∧ (({ message_id := "0", event_type := "transcript_entry", agent := "a",
              role := some "assistant", content := some "hi" } : LogRecord)
            ∈ (SessionState.log ⟨0, []⟩)
       ∨ ({ message_id := "0", event_type := "transcript_entry", agent := "a",
              role := some "assistant", content := some "hi" } : LogRecord).substance
            = Option.none
       ∨ ({ message_id := "0", event_type := "transcript_entry", agent := "a",
              role := some "assistant", content := some "hi" } : LogRecord).cause
            = Option.none) := by
  constructor
  · exact claim_C3_substance_cause_exclusive.1 (.tracked "hello" "7")
  · exact claim_C3_substance_cause_exclusive.2.2 "a" (fun _ _ s => (.plain "ok", s))
      [{ turn := { content := "hi" } }] Option.none
      { language_model := "m", transcript := [{ role := "user", content := some "q" }] }
      ⟨0, []⟩ (.tracked "hi" "0")
      { language_model := "m",
        transcript := [{ role := "user", content := some "q" },
                       { role := "assistant", content := some "hi" }] }
      ⟨1, [{ message_id := "0", event_type := "transcript_entry", agent := "a",
             role := some "assistant", content := some "hi" }]⟩ []
      (fun _ _ _ q hq => Or.inl hq) (by decide)
      { message_id := "0", event_type := "transcript_entry", agent := "a",
        role := some "assistant", content := some "hi" } (by decide)

/-- When the loop terminates, the result is a TrackedString whose message id
is the one assigned to the logged record of the final assistant turn. -/
theorem respond_terminal (aid : String) (da : DoAction) :
    ∀ (steps : List LoopStep), (∀ step ∈ steps, step.turn.role = "assistant") →
    ∀ (a : AgentState) (st : SessionState) r a2 st2 left,
      respond aid da steps a st = some (r, a2, st2, left) →
      ∃ c i, r = .tracked c i ∧ ∃ rec ∈ st2.log,
        rec.message_id = i ∧ rec.event_type = "transcript_entry" ∧ rec.agent = aid
        ∧ rec.role = some "assistant" ∧ rec.content = some c
        ∧ rec.tool_calls = Option.none := by
  intro steps
  induction steps with
  | nil => intro _ a st r a2 st2 left h; simp [respond] at h
  | cons step rest ih =>
    intro hroles a st r a2 st2 left h
    have hrole : step.turn.role = "assistant" := hroles step (List.mem_cons_self _ _)
    have hrest : ∀ s ∈ rest, s.turn.role = "assistant" :=
      fun s hs => hroles s (List.mem_cons_of_mem _ hs)
    simp only [respond] at h
    by_cases hemp : step.turn.tool_calls.isEmpty
    · rw [if_pos hemp] at h
      cases hv : step.verdict with
      | some problem =>
        rw [hv] at h
        exact ih hrest _ _ _ _ _ _ h
      | none =>
        rw [hv] at h
        injection h with h
        injection h with h1 h
        injection h with h2 h
        injection h with h3 h4
        subst h3
        refine ⟨step.turn.content, _, h1.symm, ?_⟩
        refine ⟨_, List.mem_append_right _ (List.mem_singleton.2 rfl), ?_⟩
        refine ⟨rfl, rfl, rfl, ?_, rfl, ?_⟩
        · show some step.turn.role = some "assistant"
          rw [hrole]
        · show (if step.turn.tool_calls.isEmpty then Option.none
            else some step.turn.tool_calls) = Option.none
          rw [if_pos hemp]
    · rw [if_neg hemp] at h
      exact ih hrest _ _ _ _ _ _ h

/-- C7: when the agent loop terminates (a model turn with no tool-call
requests that no hook vetoes), Agent.response returns a ProvenanceString
(a TrackedString) wrapping the final utterance whose substance marker is the
message id assigned when that assistant turn was logged: the log holds a
transcript_entry for this agent with exactly that message id, role assistant,
the same content, and no tool calls. -/
theorem claim_C7_terminal_tracked_result (aid : String) (da : DoAction)
    (steps : List LoopStep) (input : Option HarkenInput)
    (a : AgentState) (st : SessionState)
    (r : ProvenanceString) (a2 : AgentState) (st2 : SessionState) (left : List LoopStep)
    (hroles : ∀ step ∈ steps, step.turn.role = "assistant")
    (hres : Agent.response aid da steps input a st = some (r, a2, st2, left)) :
    ∃ c i, r = .tracked c i ∧ r.substanceOf = some i ∧ ∃ rec ∈ st2.log,
      rec.message_id = i ∧ rec.event_type = "transcript_entry" ∧ rec.agent = aid
      ∧ rec.role = some "assistant" ∧ rec.content = some c
      ∧ rec.tool_calls = Option.none := by
  have main : ∃ c i, r = .tracked c i ∧ ∃ rec ∈ st2.log,
      rec.message_id = i ∧ rec.event_type = "transcript_entry" ∧ rec.agent = aid
      ∧ rec.role = some "assistant" ∧ rec.content = some c
      ∧ rec.tool_calls = Option.none := by
    cases input with
    | none => exact respond_terminal aid da steps hroles _ _ _ _ _ _ hres
    | some i => exact respond_terminal aid da steps hroles _ _ _ _ _ _ hres
  obtain ⟨c, i, hr, hrec⟩ := main
  exact ⟨c, i, hr, by rw [hr]; rfl, hrec⟩

/-- Witness for C7: a concrete one-turn run with no tool calls and no veto. -/
theorem claim_C7_witness :
    ∃ c i, (ProvenanceString.tracked "hi" "0") = .tracked c i
      ∧ (ProvenanceString.tracked "hi" "0").substanceOf = some i
      ∧ ∃ rec ∈ (SessionState.log
          ⟨1, [{ message_id := "0", event_type := "transcript_entry", agent := "a",
                 role := some "assistant", content := some "hi" }]⟩),
        rec.message_id = i ∧ rec.event_type = "transcript_entry" ∧ rec.agent = "a"
        ∧ rec.role = some "assistant" ∧ rec.content = some c
        ∧ rec.tool_calls = Option.none :=
  claim_C7_terminal_tracked_result "a" (fun _ _ s => (.plain "ok", s))
    [{ turn := { content := "hi" } }] Option.none
    { language_model := "m", transcript := [{ role := "user", content := some "q" }] }
    ⟨0, []⟩ (.tracked "hi" "0")
    { language_model := "m",
      transcript := [{ role := "user", content := some "q" },
                     { role := "assistant", content := some "hi" }] }
    ⟨1, [{ message_id := "0", event_type := "transcript_entry", agent := "a",
           role := some "assistant", content := some "hi" }]⟩ []
    (by decide) (by decide)

/-- A captured stream never exceeds the output budget. -/
theorem read_stream_length_le (chunks : List String) :
    (read_stream chunks).length ≤ MAX_OUTPUT := by
  show (String.mk ((String.join (readStreamParts chunks [])).toList.take MAX_OUTPUT)).length
    ≤ MAX_OUTPUT
  show ((String.join (readStreamParts chunks [])).toList.take MAX_OUTPUT).length ≤ MAX_OUTPUT
  simp [List.length_take]

/-- C9: a timed-out shell delegation returns a failure whose text is the
message "Command timed out after {timeout}s" followed by the captured stderr
then the captured stdout, each stream capped to the 30000-character budget;
the 1-second timeout prints as "1.0"; a zero-exit run returns stdout then
stderr and a nonzero-exit run returns stderr then stdout. -/
theorem claim_C9_bash_callback_text (cb : BashCallback) (so se : List String) :
    (handle_bash_callback cb .timeout so se
      = (false, "Command timed out after " ++ formatTenths cb.timeoutTenths ++ "s\n"
          ++ read_stream se ++ "\n" ++ read_stream so))
    ∧ (∃ rest, (handle_bash_callback cb .timeout so se).2
        = ("Command timed out after " ++ formatTenths cb.timeoutTenths ++ "s") ++ rest)
    ∧ (read_stream so).length ≤ 30000 ∧ (read_stream se).length ≤ 30000
    ∧ formatTenths 10 = "1.0"
    ∧ handle_bash_callback cb (.code 0) so se
        = (true, read_stream so ++ "\n" ++ read_stream se)
    ∧ (∀ n : Int, n ≠ 0 → handle_bash_callback cb (.code n) so se
        = (false, read_stream se ++ "\n" ++ read_stream so)) := by
  refine ⟨rfl, ?_, read_stream_length_le so, read_stream_length_le se, rfl, rfl, ?_⟩
  · refine ⟨"\n" ++ read_stream se ++ "\n" ++ read_stream so, ?_⟩
    show "Command timed out after " ++ formatTenths cb.timeoutTenths ++ "s\n"
        ++ read_stream se ++ "\n" ++ read_stream so
      = "Command timed out after " ++ formatTenths cb.timeoutTenths ++ "s"
        ++ ("\n" ++ read_stream se ++ "\n" ++ read_stream so)
    have h : ∀ a b : String, a ++ "s\n" ++ b = a ++ "s" ++ ("\n" ++ b) := by
      intro a b
      apply String.ext
      simp [String.data_append]
    have h2 := h ("Command timed out after " ++ formatTenths cb.timeoutTenths)
      (read_stream se ++ "\n" ++ read_stream so)
    simpa [String.append_assoc] using h2
  · intro n hn
    match n, hn with
    | Int.ofNat 0, hn => exact absurd rfl hn
    | Int.ofNat (m + 1), _ => rfl
    | Int.negSucc m, _ => rfl

/-- Witness for C9 on concrete streams: a 1.0-second timeout message, and the
nonzero-exit ordering. -/
theorem claim_C9_witness :
    handle_bash_callback ⟨"sleep 5", 10⟩ .timeout ["out"] ["err"]
      = (false, "Command timed out after 1.0s\nerr\nout")
    ∧ handle_bash_callback ⟨"x", 10⟩ (.code 1) ["out"] ["err"] = (false, "err\nout") := by
  constructor
  · have h1 := (claim_C9_bash_callback_text ⟨"sleep 5", 10⟩ ["out"] ["err"]).1
    rw [h1]; decide
  · have h2 := (claim_C9_bash_callback_text ⟨"x", 10⟩ ["out"] ["err"]).2.2.2.2.2.2
      1 (by decide)
    rw [h2]; decide

/-! ## Injectivity of decimal representation (for the agent-id loop) -/

/-- Nat.toDigitsCore at base 10 computes natDigits, given enough fuel. -/
theorem toDigitsCore_eq_natDigits :
    ∀ (f n : Nat) (acc : List Char), n < f →
      Nat.toDigitsCore 10 f n acc = natDigits n ++ acc := by
  intro f
  induction f with
  | zero => intro n acc h; omega
  | succ f ih =>
    intro n acc h
    simp only [Nat.toDigitsCore]
    by_cases h10 : n / 10 = 0
    · rw [if_pos h10, natDigits]
      have hn : n < 10 := by omega
      rw [dif_pos hn, Nat.mod_eq_of_lt hn]
      simp
    · rw [if_neg h10, natDigits]
      have hn : ¬ n < 10 := by omega
      rw [dif_neg hn]
      rw [ih (n / 10) _ (by omega)]
      simp

/-- Decimal digit characters decode back to their value. -/
theorem digitChar_decode : ∀ d : Nat, d < 10 → (Nat.digitChar d).toNat - 48 = d := by
  decide

/-- The decoder undigit inverts natDigits. -/
theorem undigit_natDigits (n : Nat) : undigit (natDigits n) = n := by
  induction n using Nat.strong_induction_on with
  | _ n ih =>
    rw [natDigits]
    by_cases hn : n < 10
    · rw [dif_pos hn]
      show 10 * 0 + ((Nat.digitChar n).toNat - 48) = n
      rw [digitChar_decode n hn]
      omega
    · rw [dif_neg hn]
      show undigit (natDigits (n / 10) ++ [Nat.digitChar (n % 10)]) = n
      have : undigit (natDigits (n / 10) ++ [Nat.digitChar (n % 10)])
          = 10 * undigit (natDigits (n / 10)) + ((Nat.digitChar (n % 10)).toNat - 48) := by
        simp [undigit, List.foldl_append]
      rw [this, ih (n / 10) (by omega), digitChar_decode (n % 10) (by omega)]
      omega

/-- Decimal string representation of naturals is injective. -/
theorem natToString_inj : ∀ a b : Nat, toString a = toString b → a = b := by
  intro a b h
  have ha : toString a = List.asString (natDigits a) := by
    show Nat.repr a = List.asString (natDigits a)
    rw [Nat.repr, Nat.toDigits, toDigitsCore_eq_natDigits (a + 1) a [] (by omega)]
    simp
  have hb : toString b = List.asString (natDigits b) := by
    show Nat.repr b = List.asString (natDigits b)
    rw [Nat.repr, Nat.toDigits, toDigitsCore_eq_natDigits (b + 1) b [] (by omega)]
    simp
  rw [ha, hb] at h
  have hd : natDigits a = natDigits b := congrArg String.data h
  have := undigit_natDigits a
  rw [hd, undigit_natDigits b] at this
  omega

/-- Candidates base ++ toString i are pairwise distinct. -/
theorem cand_inj (base : String) : ∀ i j : Nat,
    base ++ toString i = base ++ toString j → i = j := by
  intro i j h
  apply natToString_inj
  apply String.ext
  have := congrArg String.data h
  simp only [String.data_append] at this
  exact List.append_cancel_left this

/-- Pigeonhole: among the first used.length + 1 numbered candidates, one is
free. -/
theorem exists_free_cand (used : List String) (base : String) :
    ∃ k ≤ used.length, (base ++ toString (1 + k)) ∉ used := by
  by_contra hcon
  push_neg at hcon
  have hsub : (Finset.range (used.length + 1)).image
      (fun k => base ++ toString (1 + k)) ⊆ used.toFinset := by
    intro x hx
    simp only [Finset.mem_image, Finset.mem_range] at hx
    obtain ⟨k, hk, rfl⟩ := hx
    exact List.mem_toFinset.2 (hcon k (by omega))
  have hcard := Finset.card_le_card hsub
  rw [Finset.card_image_of_injective _ (fun i j h => by
      have := cand_inj base (1 + i) (1 + j) h; omega),
    Finset.card_range] at hcard
  have := used.toFinset_card_le
  omega

/-- The while loop returns the first free numbered candidate, provided a free
one exists within the fuel. -/
theorem makeAgentIdLoop_spec (used : List String) (base : String) :
    ∀ (fuel i : Nat), (∃ k < fuel, (base ++ toString (i + k)) ∉ used) →
      ∃ k, makeAgentIdLoop used base fuel i = base ++ toString (i + k)
        ∧ (base ++ toString (i + k)) ∉ used
        ∧ ∀ m < k, (base ++ toString (i + m)) ∈ used := by
  intro fuel
  induction fuel with
  | zero => intro i h; omega
  | succ fuel ih =>
    intro i h
    simp only [makeAgentIdLoop]
    by_cases hc : (base ++ toString i) ∈ used
    · rw [if_pos hc]
      obtain ⟨k, hk, hfree⟩ := h
      have hk0 : k ≠ 0 := by
        intro h0; rw [h0] at hfree; simp at hfree; exact hfree hc
      obtain ⟨k2, hres, hfree2, hmin⟩ := ih (i + 1)
        ⟨k - 1, by omega, by
          have : i + 1 + (k - 1) = i + k := by omega
          rw [this]; exact hfree⟩
      refine ⟨k2 + 1, ?_, ?_, ?_⟩
      · have he : i + (k2 + 1) = i + 1 + k2 := by omega
        rw [he]; exact hres
      · have : i + (k2 + 1) = i + 1 + k2 := by omega
        rw [this]; exact hfree2
      · intro m hm
        cases m with
        | zero => simpa using hc
        | succ m =>
          have : i + (m + 1) = i + 1 + m := by omega
          rw [this]; exact hmin m (by omega)
    · rw [if_neg hc]
      exact ⟨0, by simp, by simpa using hc, by omega⟩

/-- The id returned by Session._make_agent_id is never one already assigned. -/
theorem make_agent_id_not_mem (used : List String) (base_name : String) :
    make_agent_id used base_name ∉ used := by
  unfold make_agent_id
  by_cases hb : sanitizeBaseName base_name ∈ used
  · rw [if_pos hb]
    obtain ⟨k0, hk0, hfree⟩ := exists_free_cand used (sanitizeBaseName base_name)
    obtain ⟨k, hres, hfree2, _⟩ := makeAgentIdLoop_spec used (sanitizeBaseName base_name)
      (used.length + 1) 1 ⟨k0, by omega, hfree⟩
    rw [hres]; exact hfree2
  · rw [if_neg hb]; exact hb

/-- C10: Session._make_agent_id sanitizes the name (lowercase, non-alphanumeric
and non-underscore characters replaced by underscores, leading and trailing
underscores stripped) and returns it as the id when it is unused, otherwise
appends the smallest positive integer making it fresh; in all cases the result
differs from every previously assigned id, so repeated names always receive
distinct ids. -/
theorem claim_C10_agent_id_fresh (used : List String) (base_name : String) :
    make_agent_id used base_name ∉ used
    ∧ (sanitizeBaseName base_name ∉ used →
        make_agent_id used base_name = sanitizeBaseName base_name)
    ∧ (sanitizeBaseName base_name ∈ used →
        ∃ k, 1 ≤ k
          ∧ make_agent_id used base_name = sanitizeBaseName base_name ++ toString k
          ∧ (sanitizeBaseName base_name ++ toString k) ∉ used
          ∧ ∀ m, 1 ≤ m → m < k → (sanitizeBaseName base_name ++ toString m) ∈ used)
    ∧ make_agent_id (used ++ [make_agent_id used base_name]) base_name
        ≠ make_agent_id used base_name := by
  refine ⟨make_agent_id_not_mem used base_name, ?_, ?_, ?_⟩
  · intro hb; unfold make_agent_id; rw [if_neg hb]
  · intro hb
    unfold make_agent_id
    rw [if_pos hb]
    obtain ⟨k0, hk0, hfree⟩ := exists_free_cand used (sanitizeBaseName base_name)
    obtain ⟨k, hres, hfree2, hmin⟩ := makeAgentIdLoop_spec used (sanitizeBaseName base_name)
      (used.length + 1) 1 ⟨k0, by omega, hfree⟩
    refine ⟨1 + k, by omega, hres, hfree2, ?_⟩
    intro m h1 hm
    have := hmin (m - 1) (by omega)
    have he : 1 + (m - 1) = m := by omega
    rw [he] at this
    exact this
  · intro heq
    have := make_agent_id_not_mem (used ++ [make_agent_id used base_name]) base_name
    rw [heq] at this
    exact this (List.mem_append_right _ (List.mem_singleton.2 rfl))

/-- Witness for C10: the sanitization on a concrete name, and freshness
against concrete previously assigned ids. -/
theorem claim_C10_witness :
    make_agent_id ["user"] "My Agent!" = "my_agent"
    ∧ make_agent_id ["user", "hook"] "hook_" ∉ (["user", "hook"] : List String) := by
  constructor
  · have h := (claim_C10_agent_id_fresh ["user"] "My Agent!").2.1 (by decide)
    rw [h]; decide
  · exact (claim_C10_agent_id_fresh ["user", "hook"] "hook_").1

/-- The decimal string of a natural, as a digit list. -/
theorem natToString_eq (n : Nat) : toString n = List.asString (natDigits n) := by
  show Nat.repr n = List.asString (natDigits n)
  rw [Nat.repr, Nat.toDigits, toDigitsCore_eq_natDigits (n + 1) n [] (by omega)]
  simp

/-- Decimal digit lists are non-empty and made of digit characters. -/
theorem natDigits_digits (n : Nat) :
    natDigits n ≠ [] ∧ (natDigits n).all (fun c => c.isDigit) = true := by
  induction n using Nat.strong_induction_on with
  | _ n ih =>
    rw [natDigits]
    by_cases hn : n < 10
    · rw [dif_pos hn]
      refine ⟨by simp, ?_⟩
      have : ∀ d : Nat, d < 10 → (Nat.digitChar d).isDigit = true := by decide
      simp [this n hn]
    · rw [dif_neg hn]
      have h1 := ih (n / 10) (by omega)
      have h2 : ∀ d : Nat, d < 10 → (Nat.digitChar d).isDigit = true := by decide
      refine ⟨by simp, ?_⟩
      simp only [List.all_append, h1.2]
      simp [h2 (n % 10) (by omega)]

/-- The message ids Session._write produces count as digit strings. -/
theorem isDigitString_toString (n : Nat) : isDigitString (toString n) = true := by
  rw [natToString_eq]
  show (!(natDigits n).isEmpty && (natDigits n).all (fun c => c.isDigit)) = true
  obtain ⟨h1, h2⟩ := natDigits_digits n
  cases he : natDigits n with
  | nil => exact absurd he h1
  | cons c cs =>
    rw [he] at h2
    simpa using h2

/-- Parsing a written message id recovers the counter value. -/
theorem undigit_toString (n : Nat) : undigit (toString n).toList = n := by
  rw [natToString_eq]
  show undigit (natDigits n) = n
  exact undigit_natDigits n

/-- Session._write over a list of records: the ids are the consecutive decimal
strings from the current counter, the counter advances by the number of
records, and the log grows by exactly the id-stamped records in order. -/
theorem write_fst (st : SessionState) (r : LogRecord) :
    (st.write r).1 = toString st.nextMessageId := rfl

/-- One write advances the counter by one. -/
theorem write_next (st : SessionState) (r : LogRecord) :
    (st.write r).2.nextMessageId = st.nextMessageId + 1 := rfl

/-- One write appends the id-stamped record. -/
theorem write_log (st : SessionState) (r : LogRecord) :
    (st.write r).2.log = st.log ++ [{ r with message_id := toString st.nextMessageId }] :=
  rfl

/-- Session._write over a list of records: the ids are the consecutive decimal
strings from the current counter, the counter advances by the number of
records, and the log grows by exactly the id-stamped records in order. -/
theorem writeMany_spec (recs : List LogRecord) : ∀ (st : SessionState),
    (writeMany st recs).1
        = (List.range' st.nextMessageId recs.length).map (fun j => toString j)
    ∧ (writeMany st recs).2.nextMessageId = st.nextMessageId + recs.length
    ∧ (writeMany st recs).2.log = st.log ++
        List.zipWith (fun r j => { r with message_id := toString j }) recs
          (List.range' st.nextMessageId recs.length) := by
  induction recs with
  | nil => intro st; refine ⟨rfl, rfl, by simp [writeMany]⟩
  | cons r rest ih =>
    intro st
    obtain ⟨ih1, ih2, ih3⟩ := ih ((st.write r).2)
    rw [write_next] at ih1 ih2 ih3
    rw [write_log] at ih3
    refine ⟨?_, ?_, ?_⟩
    · show (st.write r).1 :: (writeMany (st.write r).2 rest).1 = _
      rw [write_fst, ih1, List.length_cons, List.range'_succ, List.map_cons]
    · show (writeMany (st.write r).2 rest).2.nextMessageId = _
      rw [ih2, List.length_cons]; omega
    · show (writeMany (st.write r).2 rest).2.log = _
      rw [ih3, List.length_cons, List.range'_succ, List.zipWith_cons_cons,
        List.append_assoc, List.singleton_append]

/-- loadEvent updates the running maximum exactly as the loop body does. -/
theorem loadEvent_max (s : LoadState) (e : LogRecord) (s2 : LoadState)
    (h : loadEvent s e = some s2) :
    s2.maxMessageId = (if isDigitString e.message_id
      then max s.maxMessageId (undigit e.message_id.toList : Int) else s.maxMessageId) := by
  simp only [loadEvent] at h
  repeat' split at h
  all_goals first
    | (obtain rfl := Option.some.inj h; simp_all)
    | (cases h)

/-- The replay fold accumulates the maximum message id of the whole log. -/
theorem foldlM_loadEvent_max : ∀ (log : List LogRecord) (s f : LoadState),
    log.foldlM loadEvent s = some f →
    f.maxMessageId = log.foldl (fun m r => if isDigitString r.message_id
      then max m (undigit r.message_id.toList : Int) else m) s.maxMessageId := by
  intro log
  induction log with
  | nil => intro s f h; cases h; rfl
  | cons e rest ih =>
    intro s f h
    rw [List.foldlM_cons] at h
    cases he : loadEvent s e with
    | none => rw [he] at h; cases h
    | some s1 =>
      rw [he] at h
      rw [List.foldl_cons, ← loadEvent_max s e s1 he]
      exact ih s1 f h

/-- Session.load recovers next_message_id as one more than the maximum
message id in the log. -/
theorem load_next_eq_max_add_one (log : List LogRecord) (res : LoadResult)
    (h : Session.load log = some res) :
    res.nextMessageId = (log.foldl (fun m r => if isDigitString r.message_id
      then max m (undigit r.message_id.toList : Int) else m) (-1)) + 1 := by
  unfold Session.load at h
  cases hf : List.foldlM loadEvent ⟨[], Option.none, -1⟩ log with
  | none => rw [hf] at h; rw [Option.bind_eq_bind, Option.none_bind] at h; cases h
  | some final =>
    rw [hf] at h
    rw [Option.bind_eq_bind, Option.some_bind] at h
    cases hi : final.interlocutorId with
    | none => rw [hi, Option.bind_eq_bind, Option.none_bind] at h; cases h
    | some interId =>
      rw [hi, Option.bind_eq_bind, Option.some_bind] at h
      cases ha : alookup final.agentspec interId with
      | none => rw [ha, Option.bind_eq_bind, Option.none_bind] at h; cases h
      | some spec =>
        rw [ha, Option.bind_eq_bind, Option.some_bind] at h
        obtain rfl := Option.some.inj h
        show final.maxMessageId + 1 = _
        rw [foldlM_loadEvent_max log _ final hf]

/-- Folding max over a consecutive range of naturals. -/
theorem foldl_max_range' : ∀ (k n : Nat) (acc : Int),
    (List.range' n k).foldl (fun (m : Int) (j : Nat) => max m (j : Int)) acc
      = if k = 0 then acc else max acc ((n : Int) + (k : Int) - 1) := by
  intro k
  induction k with
  | zero => intro n acc; rfl
  | succ k ih =>
    intro n acc
    rw [List.range'_succ, List.foldl_cons, ih (n + 1) (max acc n)]
    by_cases hk : k = 0
    · subst hk
      simp only [if_pos rfl, if_neg (by omega : ¬ 0 + 1 = 0)]
      push_cast
      omega
    · rw [if_neg hk, if_neg (by omega : ¬ k + 1 = 0)]
      push_cast
      omega

/-- The maximum fold over a freshly written log equals the fold over the
assigned counter values. -/
theorem foldl_max_stamped : ∀ (recs : List LogRecord) (n : Nat) (acc : Int),
    (List.zipWith (fun r j => { r with message_id := toString j }) recs
        (List.range' n recs.length)).foldl
      (fun m r => if isDigitString r.message_id
        then max m (undigit r.message_id.toList : Int) else m) acc
    = (List.range' n recs.length).foldl (fun (m : Int) (j : Nat) => max m (j : Int)) acc := by
  intro recs
  induction recs with
  | nil => intro n acc; rfl
  | cons r rest ih =>
    intro n acc
    rw [List.length_cons, List.range'_succ, List.zipWith_cons_cons,
      List.foldl_cons, List.foldl_cons]
    have hd : isDigitString (toString n) = true := isDigitString_toString n
    show (List.zipWith _ rest (List.range' (n+1) rest.length)).foldl _
        (if isDigitString (toString n) = true
          then max acc (undigit (toString n).toList : Int) else acc) = _
    rw [if_pos hd, undigit_toString]
    exact ih (n + 1) (max acc (n : Int))

/-- C2: message ids assigned by Session._write within one session are the
consecutive decimal strings of the counter (strictly increasing, no gaps),
and Session.load recovers next_message_id as the maximum message id seen in
the log plus one; in particular, loading the log a fresh session wrote
recovers the exact number of writes. -/
theorem claim_C2_message_ids (st : SessionState) (recs : List LogRecord)
    (log : List LogRecord) (res res2 : LoadResult)
    (hload : Session.load log = some res)
    (hwr : Session.load ((writeMany ⟨0, []⟩ recs).2.log) = some res2) :
    (writeMany st recs).1
        = (List.range' st.nextMessageId recs.length).map (fun j => toString j)
    ∧ (writeMany st recs).2.nextMessageId = st.nextMessageId + recs.length
    ∧ res.nextMessageId
        = (log.foldl (fun m r => if isDigitString r.message_id
            then max m (undigit r.message_id.toList : Int) else m) (-1)) + 1
    ∧ res2.nextMessageId = recs.length := by
  refine ⟨(writeMany_spec recs st).1, (writeMany_spec recs st).2.1,
    load_next_eq_max_add_one log res hload, ?_⟩
  have h := load_next_eq_max_add_one _ res2 hwr
  rw [(writeMany_spec recs ⟨0, []⟩).2.2] at h
  simp only [List.nil_append] at h
  rw [foldl_max_stamped recs 0 (-1), foldl_max_range' recs.length 0 (-1)] at h
  by_cases hk : recs.length = 0
  · rw [if_pos hk] at h; rw [h, hk]; rfl
  · rw [if_neg hk] at h
    rw [h]
    have h1 : 1 ≤ recs.length := by omega
    have h2 : (1 : Int) ≤ (recs.length : Int) := by exact_mod_cast h1
    omega

/-- Witness for C2: two writes from a fresh session and a loadable log. -/
theorem claim_C2_witness :
    (writeMany ⟨0, []⟩
        [{ event_type := "agent_created", agent := "primary", name := some "Primary",
           parent := some "user", language_model := some "m",
           cause := some (.one "user") },
         { event_type := "transcript_entry", agent := "primary", role := some "user",
           content := some "hello" }]).1 = ["0", "1"]
    ∧ LoadResult.nextMessageId
        ⟨[("primary", ⟨"m", [{ role := "user", content := some "hello" }], []⟩)],
          "primary", 2⟩ = 2 := by
  have h := claim_C2_message_ids ⟨0, []⟩
    [{ event_type := "agent_created", agent := "primary", name := some "Primary",
       parent := some "user", language_model := some "m",
       cause := some (.one "user") },
     { event_type := "transcript_entry", agent := "primary", role := some "user",
       content := some "hello" }]
    ((writeMany ⟨0, []⟩
      [{ event_type := "agent_created", agent := "primary", name := some "Primary",
         parent := some "user", language_model := some "m",
         cause := some (.one "user") },
       { event_type := "transcript_entry", agent := "primary", role := some "user",
         content := some "hello" }]).2.log)
    ⟨[("primary", ⟨"m", [{ role := "user", content := some "hello" }], []⟩)],
      "primary", 2⟩
    ⟨[("primary", ⟨"m", [{ role := "user", content := some "hello" }], []⟩)],
      "primary", 2⟩
    (by decide) (by decide)
  constructor
  · rw [h.1]; decide
  · rw [h.2.2.2]; decide

/-- C8: a discussion round with speakers ["X", "Y"] and prompt "start": the
fragment is logged, both X and Y receive the prompt, X responds first (its
reply is logged with the third id assigned), Y receives X's reply prefixed
"[X]: " before producing its own (logged with the fifth id), X then receives
Y's prefixed reply, and the returned value is the "\n\n"-joined string
"[X]: <x reply>\n\n[Y]: <y reply>" carrying cause = [x_message_id,
y_message_id].  The final transcripts exhibit the strict turn order and the
session counter advanced by exactly the seven logged events. -/
theorem claim_C8_discussion_round (paid ctc xa ya xm ym rx ry : String)
    (tx0 ty0 : List Msg) (da : DoAction) (st : SessionState) :
    (∃ st2 : SessionState,
      Agent.discuss
        ⟨paid,
          [("X", ⟨xa, ⟨xm, tx0⟩, [⟨⟨"assistant", rx, []⟩, Option.none⟩]⟩),
           ("Y", ⟨ya, ⟨ym, ty0⟩, [⟨⟨"assistant", ry, []⟩, Option.none⟩]⟩)],
          Option.none, Option.none⟩
        ctc da st (some "start") (some ["X", "Y"]) Option.none
      = Except.ok
          (.withCause ("[X]: " ++ rx ++ "\n\n" ++ ("[Y]: " ++ ry))
            (.many [toString (st.nextMessageId + 3), toString (st.nextMessageId + 5)]),
           ⟨paid,
            [("X", ⟨xa, ⟨xm, tx0 ++ [{ role := "user", content := some "start" }]
                ++ [{ role := "assistant", content := some rx }]
                ++ [{ role := "user", content := some ("[Y]: " ++ ry) }]⟩, []⟩),
             ("Y", ⟨ya, ⟨ym, ty0 ++ [{ role := "user", content := some "start" }]
                ++ [{ role := "user", content := some ("[X]: " ++ rx) }]
                ++ [{ role := "assistant", content := some ry }]⟩, []⟩)],
            some ["X", "Y"], some []⟩,
           st2)
      ∧ st2.nextMessageId = st.nextMessageId + 7)
    ∧ (∀ a b : String, String.intercalate "\n\n" [a, b] = a ++ "\n\n" ++ b) := by
  exact ⟨⟨_, rfl, rfl⟩, fun a b => rfl⟩

/-! ### Association-list toolbox -/

/-- A lookup misses exactly when the key is absent. -/
theorem alookup_eq_none {α : Type} :
    ∀ (l : List (String × α)) (k : String),
      alookup l k = Option.none ↔ k ∉ l.map Prod.fst := by
  intro l
  induction l with
  | nil => intro k; simp [alookup]
  | cons p rest ih =>
    intro k
    by_cases h : p.1 = k
    · simp [alookup, h]
    · simp [alookup, h, ih k, Ne.symm h]

/-- A present key has a lookup value. -/
theorem alookup_isSome_of_mem {α : Type} (l : List (String × α)) (k : String)
    (h : k ∈ l.map Prod.fst) : ∃ v, alookup l k = some v := by
  cases ha : alookup l k with
  | none => exact absurd ((alookup_eq_none l k).1 ha) (by simpa using h)
  | some v => exact ⟨v, rfl⟩

/-- Setting an absent key appends it. -/
theorem aset_of_not_mem {α : Type} :
    ∀ (l : List (String × α)) (k : String) (v : α), k ∉ l.map Prod.fst →
      aset l k v = l ++ [(k, v)] := by
  intro l
  induction l with
  | nil => intro k v _; rfl
  | cons p rest ih =>
    intro k v h
    simp only [List.map_cons, List.mem_cons] at h
    push_neg at h
    simp [aset, Ne.symm h.1, ih k v h.2]

/-- Setting a key present in the left part ignores the right part. -/
theorem aset_append_left {α : Type} :
    ∀ (l l2 : List (String × α)) (k : String) (v : α), k ∈ l.map Prod.fst →
      aset (l ++ l2) k v = aset l k v ++ l2 := by
  intro l
  induction l with
  | nil => intro l2 k v h; simp at h
  | cons p rest ih =>
    intro l2 k v h
    by_cases hk : p.1 = k
    · simp [aset, hk]
    · simp only [List.map_cons, List.mem_cons] at h
      rcases h with h | h
      · exact absurd h.symm hk
      · simp [aset, hk, ih l2 k v h]

/-- Lookup distributes over append. -/
theorem alookup_append {α : Type} :
    ∀ (l l2 : List (String × α)) (k : String),
      alookup (l ++ l2) k
        = match alookup l k with
          | some v => some v
          | Option.none => alookup l2 k := by
  intro l
  induction l with
  | nil => intro l2 k; rfl
  | cons p rest ih =>
    intro l2 k
    by_cases hk : p.1 = k
    · simp [alookup, hk]
    · simp [alookup, hk, ih l2 k]

/-- Lookup after setting the same key. -/
theorem alookup_aset_self {α : Type} :
    ∀ (l : List (String × α)) (k : String) (v : α),
      alookup (aset l k v) k = some v := by
  intro l
  induction l with
  | nil => intro k v; simp [aset, alookup]
  | cons p rest ih =>
    intro k v
    by_cases hk : p.1 = k
    · simp [aset, alookup, hk]
    · simp [aset, alookup, hk, ih k v]

/-- Lookup after setting a different key. -/
theorem alookup_aset_ne {α : Type} :
    ∀ (l : List (String × α)) (k k2 : String) (v : α), k2 ≠ k →
      alookup (aset l k v) k2 = alookup l k2 := by
  intro l
  induction l with
  | nil => intro k k2 v h; simp [aset, alookup, Ne.symm h]
  | cons p rest ih =>
    intro k k2 v h
    by_cases hk : p.1 = k
    · simp [aset, alookup, hk, Ne.symm h]
    · by_cases hk2 : p.1 = k2
      · simp [aset, alookup, hk, hk2, h]
      · simp [aset, alookup, hk, hk2, ih k k2 v h]

/-- Setting a present key leaves the key list unchanged. -/
theorem keys_aset_of_mem {α : Type} :
    ∀ (l : List (String × α)) (k : String) (v : α), k ∈ l.map Prod.fst →
      (aset l k v).map Prod.fst = l.map Prod.fst := by
  intro l
  induction l with
  | nil => intro k v h; simp at h
  | cons p rest ih =>
    intro k v h
    by_cases hk : p.1 = k
    · simp [aset, hk]
    · simp only [List.map_cons, List.mem_cons] at h
      rcases h with h | h
      · exact absurd h.symm hk
      · simp [aset, hk, ih k v h]

/-- Mapping over a set list is mapping over the original when the function
does not distinguish the old and new value at the changed key. -/
theorem map_aset {α β : Type} (f : String × α → β) :
    ∀ (l : List (String × α)) (k : String) (v v0 : α),
      alookup l k = some v0 → f (k, v) = f (k, v0) →
      (aset l k v).map f = l.map f := by
  intro l
  induction l with
  | nil => intro k v v0 h _; simp [alookup] at h
  | cons p rest ih =>
    intro k v v0 h hf
    by_cases hk : p.1 = k
    · simp only [alookup, if_pos hk] at h
      obtain rfl := Option.some.inj h
      simp only [aset, if_pos hk, List.map_cons]
      rw [← hk] at hf
      rw [show (p.1, p.2) = p from rfl] at hf
      rw [hf]
    · simp only [alookup, if_neg hk] at h
      simp [aset, hk, ih k v v0 h hf]

/-! ### The graph part of the replay ignores message ids and the counter -/

/-- Case rule: creation with parent "user". -/
theorem loadEvent_graph_created_user (s : LoadState) (e : LogRecord)
    (lm nm : String)
    (he : e.event_type = "agent_created") (hlm : e.language_model = some lm)
    (hn : e.name = some nm) (hp : e.parent = some "user") :
    Option.map graphOf (loadEvent s e)
      = some (aset s.agentspec e.agent ⟨lm, [], []⟩, some e.agent) := by
  simp [loadEvent, he, hlm, hn, hp, graphOf]

/-- Case rule: creation under an existing parent. -/
theorem loadEvent_graph_created_parent (s : LoadState) (e : LogRecord)
    (lm nm p : String) (pspec : AgentSpec)
    (he : e.event_type = "agent_created") (hlm : e.language_model = some lm)
    (hn : e.name = some nm) (hp : e.parent = some p) (hpu : p ≠ "user")
    (hlook : alookup (aset s.agentspec e.agent ⟨lm, [], []⟩) p = some pspec) :
    Option.map graphOf (loadEvent s e)
      = some (aset (aset s.agentspec e.agent ⟨lm, [], []⟩) p
          { pspec with subagents := aset pspec.subagents nm e.agent },
        s.interlocutorId) := by
  simp [loadEvent, he, hlm, hn, hp, hpu, hlook, graphOf]

/-- Case rule: a transcript entry appends to its agent. -/
theorem loadEvent_graph_entry (s : LoadState) (e : LogRecord)
    (ro : String) (aspec : AgentSpec)
    (he : e.event_type = "transcript_entry") (hro : e.role = some ro)
    (hlook : alookup s.agentspec e.agent = some aspec) :
    Option.map graphOf (loadEvent s e)
      = some (aset s.agentspec e.agent
          { aspec with transcript := aspec.transcript
              ++ [⟨ro, e.content, e.tool_calls, e.tool_call_id, e.name⟩] },
        s.interlocutorId) := by
  simp [loadEvent, he, hro, hlook, graphOf]

/-- Case rule: fragments change nothing. -/
theorem loadEvent_graph_fragment (s : LoadState) (e : LogRecord)
    (he : e.event_type = "fragment") :
    Option.map graphOf (loadEvent s e) = some (s.agentspec, s.interlocutorId) := by
  simp [loadEvent, he, graphOf]

/-- The graph action of one replay step depends only on the graph part of the
state and on the record without its message id. -/
theorem loadEvent_graph_congr (s s2 : LoadState) (e e2 : LogRecord)
    (hs : graphOf s = graphOf s2) (he : SameGraphRec e e2) :
    Option.map graphOf (loadEvent s e) = Option.map graphOf (loadEvent s2 e2) := by
  obtain ⟨spec, io, m⟩ := s
  obtain ⟨spec2, io2, m2⟩ := s2
  simp only [graphOf, Prod.mk.injEq] at hs
  obtain ⟨rfl, rfl⟩ := hs
  rw [show (SameGraphRec e e2) = (e = { e2 with message_id := e.message_id }) from rfl]
    at he
  obtain ⟨mid1, et1, ag1, ro1, co1, nm1, su1, ca1, pa1, lm1, tc1, ti1, ts1⟩ := e
  obtain ⟨mid2, et2, ag2, ro2, co2, nm2, su2, ca2, pa2, lm2, tc2, ti2, ts2⟩ := e2
  injection he with h0 h1 h2 h3 h4 h5 h6 h7 h8 h9 h10 h11 h12
  subst h1; subst h2; subst h3; subst h4; subst h5; subst h6; subst h7
  subst h8; subst h9; subst h10; subst h11; subst h12
  simp only [loadEvent]
  repeat' split <;> try rfl

/-- The graph action of a whole replay depends only on the graph part of the
initial state and the records without their message ids. -/
theorem foldlM_graph_congr :
    ∀ (l l2 : List LogRecord), List.Forall₂ SameGraphRec l l2 →
    ∀ (s s2 : LoadState), graphOf s = graphOf s2 →
      Option.map graphOf (l.foldlM loadEvent s)
        = Option.map graphOf (l2.foldlM loadEvent s2) := by
  intro l l2 hall
  induction hall with
  | nil =>
    intro s s2 hs
    rw [List.foldlM_nil, List.foldlM_nil]
    show some (graphOf s) = some (graphOf s2)
    rw [hs]
  | cons hr _ ih =>
    intro s s2 hs
    rw [List.foldlM_cons, List.foldlM_cons]
    have h1 := loadEvent_graph_congr s s2 _ _ hs hr
    cases he1 : loadEvent s _ with
    | none =>
      rw [he1] at h1
      cases he2 : loadEvent s2 _ with
      | none => rfl
      | some t2 => rw [he2] at h1; cases h1
    | some t1 =>
      rw [he1] at h1
      cases he2 : loadEvent s2 _ with
      | none => rw [he2] at h1; cases h1
      | some t2 =>
        rw [he2] at h1
        simp only [Option.map] at h1
        obtain h1 := Option.some.inj h1
        exact ih t1 t2 h1

/-- Stamping message ids onto records preserves their graph content. -/
theorem stamped_sameGraph :
    ∀ (recs : List LogRecord) (n : Nat),
      List.Forall₂ SameGraphRec
        (List.zipWith (fun r j => { r with message_id := toString j }) recs
          (List.range' n recs.length)) recs := by
  intro recs
  induction recs with
  | nil => intro n; simp
  | cons r rest ih =>
    intro n
    rw [List.length_cons, List.range'_succ, List.zipWith_cons_cons]
    refine List.Forall₂.cons ?_ (ih (n + 1))
    show ({ r with message_id := toString n } : LogRecord)
      = { r with message_id := ({ r with message_id := toString n } : LogRecord).message_id }
    rfl

/-- A successful lookup means the key is present. -/
theorem alookup_some_mem {α : Type} (l : List (String × α)) (k : String) (v : α)
    (h : alookup l k = some v) : k ∈ l.map Prod.fst := by
  by_contra hc
  rw [(alookup_eq_none l k).2 hc] at h
  cases h

/-- Lookup skips a prefix without the key. -/
theorem alookup_append_right {α : Type} (l l2 : List (String × α)) (k : String)
    (h : k ∉ l.map Prod.fst) : alookup (l ++ l2) k = alookup l2 k := by
  rw [alookup_append, (alookup_eq_none l k).2 h]

/-- Setting skips a prefix without the key. -/
theorem aset_append_right {α : Type} :
    ∀ (l l2 : List (String × α)) (k : String) (v : α), k ∉ l.map Prod.fst →
      aset (l ++ l2) k v = l ++ aset l2 k v := by
  intro l
  induction l with
  | nil => intro l2 k v _; rfl
  | cons p rest ih =>
    intro l2 k v h
    simp only [List.map_cons, List.mem_cons] at h
    push_neg at h
    simp [aset, Ne.symm h.1, ih l2 k v h.2]

/-- Re-setting the looked-up value changes nothing. -/
theorem aset_self {α : Type} :
    ∀ (l : List (String × α)) (k : String) (v : α), alookup l k = some v →
      aset l k v = l := by
  intro l
  induction l with
  | nil => intro k v h; cases h
  | cons p rest ih =>
    intro k v h
    by_cases hk : p.1 = k
    · simp only [alookup, if_pos hk] at h
      obtain rfl := Option.some.inj h
      simp only [aset, if_pos hk]
    · simp only [alookup, if_neg hk] at h
      simp [aset, hk, ih k v h]

/-- Every entry of a set list is an old entry or carries the new value. -/
theorem mem_aset {α : Type} :
    ∀ (l : List (String × α)) (k : String) (v : α) (pa : String × α),
      pa ∈ aset l k v → pa ∈ l ∨ pa.2 = v := by
  intro l
  induction l with
  | nil => intro k v pa h; simp [aset] at h; simp [h]
  | cons p rest ih =>
    intro k v pa h
    by_cases hk : p.1 = k
    · simp only [aset, if_pos hk, List.mem_cons] at h
      rcases h with h | h
      · right; rw [h]
      · left; exact List.mem_cons_of_mem _ h
    · simp only [aset, if_neg hk, List.mem_cons] at h
      rcases h with h | h
      · left; rw [h]; exact List.mem_cons_self _ _
      · rcases ih k v pa h with h2 | h2
        · left; exact List.mem_cons_of_mem _ h2
        · right; exact h2

/-- Setting the same key on two pointwise-related lists keeps them related. -/
theorem forall2_aset {β γ : Type} (R : (String × β) → (String × γ) → Prop)
    (hkeys : ∀ pb pc, R pb pc → pb.1 = pc.1) :
    ∀ (l : List (String × β)) (l2 : List (String × γ)) (k : String) (x : β) (y : γ),
      List.Forall₂ R l l2 → (∀ k0 : String, R (k0, x) (k0, y)) →
      List.Forall₂ R (aset l k x) (aset l2 k y) := by
  intro l l2 k x y hall hxy
  induction hall with
  | nil => exact List.Forall₂.cons (hxy k) List.Forall₂.nil
  | cons hr hrest ih =>
    rename_i b c bs cs
    by_cases hk : b.1 = k
    · have hc : c.1 = k := (hkeys b c hr).symm.trans hk
      simp only [aset, if_pos hk, if_pos hc]
      exact List.Forall₂.cons (by rw [hk, hc]; exact hxy k) hrest
    · have hc : ¬ c.1 = k := fun h => hk ((hkeys b c hr).trans h)
      simp only [aset, if_neg hk, if_neg hc]
      exact List.Forall₂.cons hr ih

/-- Aligned lookups on two pointwise-related lists. -/
theorem alookup_forall2 {β γ : Type} (R : (String × β) → (String × γ) → Prop)
    (hkeys : ∀ pb pc, R pb pc → pb.1 = pc.1) :
    ∀ (l : List (String × β)) (l2 : List (String × γ)), List.Forall₂ R l l2 →
      ∀ k, (alookup l k = Option.none ∧ alookup l2 k = Option.none)
        ∨ ∃ b c, alookup l k = some b ∧ alookup l2 k = some c ∧ R (k, b) (k, c) := by
  intro l l2 hall
  induction hall with
  | nil => intro k; left; exact ⟨rfl, rfl⟩
  | cons hr hrest ih =>
    rename_i b c bs cs
    intro k
    by_cases hk : b.1 = k
    · have hc : c.1 = k := (hkeys b c hr).symm.trans hk
      right
      refine ⟨b.2, c.2, by simp [alookup, hk], by simp [alookup, hc], ?_⟩
      have hb : (k, b.2) = b := by rw [← hk]
      have hc2 : (k, c.2) = c := by rw [← hc]
      rw [hb, hc2]; exact hr
    · have hc : ¬ c.1 = k := fun h => hk ((hkeys b c hr).trans h)
      simpa [alookup, hk, hc] using ih k

/-! ### Stability of the serialized creation records -/

/-- parentLinkOf finds nothing in an empty dict. -/
theorem parentLinkOf_nil (x : String) : parentLinkOf [] x = Option.none := rfl

/-- Unfolding parentLinkOf on a cons cell. -/
theorem parentLinkOf_cons (pa : String × AgentSpec) (l : List (String × AgentSpec))
    (x : String) :
    parentLinkOf (pa :: l) x
      = match (pa.2.subagents.find? (fun na => decide (na.2 = x))).map
          (fun na => (pa.1, na.1)) with
        | some r => some r
        | Option.none => parentLinkOf l x := by
  unfold parentLinkOf
  rw [List.findSome?_cons]
  cases Option.map (fun na => (pa.1, na.1))
      (List.find? (fun na => decide (na.2 = x)) pa.2.subagents) with
  | none => rfl
  | some r => rfl

/-- parentLinkOf scans appended parents after the original ones. -/
theorem parentLinkOf_append :
    ∀ (l l2 : List (String × AgentSpec)) (x : String),
      parentLinkOf (l ++ l2) x
        = match parentLinkOf l x with
          | some r => some r
          | Option.none => parentLinkOf l2 x := by
  intro l
  induction l with
  | nil => intro l2 x; rfl
  | cons pa rest ih =>
    intro l2 x
    rw [List.cons_append, parentLinkOf_cons, parentLinkOf_cons, ih]
    cases (pa.2.subagents.find? (fun na => decide (na.2 = x))).map
        (fun na => (pa.1, na.1)) with
    | none => rfl
    | some r => rfl

/-- Finding a link in a map extended by a link to a different agent. -/
theorem find?_link_append_ne (x a n : String) (hx : x ≠ a) :
    ∀ (ps : List (String × String)),
      (ps ++ [(n, a)]).find? (fun na => decide (na.2 = x))
        = ps.find? (fun na => decide (na.2 = x)) := by
  intro ps
  induction ps with
  | nil => simp [List.find?, Ne.symm hx]
  | cons q rest ih =>
    rw [List.cons_append, List.find?_cons, List.find?_cons]
    cases hq : decide (q.2 = x) with
    | true => rfl
    | false => simpa using ih

/-- Finding the appended link when no earlier link matches. -/
theorem find?_link_append_self (a n : String) :
    ∀ (ps : List (String × String)), (∀ na ∈ ps, na.2 ≠ a) →
      (ps ++ [(n, a)]).find? (fun na => decide (na.2 = a)) = some (n, a) := by
  intro ps
  induction ps with
  | nil => intro _; simp [List.find?]
  | cons w ws ih =>
    intro h
    rw [List.cons_append, List.find?_cons]
    have hw : decide (w.2 = a) = false := by
      simpa using h w (List.mem_cons_self _ _)
    simp only [hw]
    exact ih (fun na hna => h na (List.mem_cons_of_mem _ hna))

/-- A transcript-only change does not move any parent link. -/
theorem parentLinkOf_aset_transcript :
    ∀ (l : List (String × AgentSpec)) (q : String) (qspec : AgentSpec)
      (ts : List Msg) (x : String),
      alookup l q = some qspec →
      parentLinkOf (aset l q { qspec with transcript := ts }) x = parentLinkOf l x := by
  intro l
  induction l with
  | nil => intro q qspec ts x h; cases h
  | cons p rest ih =>
    intro q qspec ts x h
    by_cases hq : p.1 = q
    · simp only [alookup, if_pos hq] at h
      obtain rfl := Option.some.inj h
      simp only [aset, if_pos hq]
      rw [parentLinkOf_cons, parentLinkOf_cons]
    · simp only [alookup, if_neg hq] at h
      simp only [aset, if_neg hq]
      rw [parentLinkOf_cons, parentLinkOf_cons, ih q qspec ts x h]

/-- Linking a fresh agent under p moves no existing agent's parent link. -/
theorem parentLinkOf_extend_ne :
    ∀ (l : List (String × AgentSpec)) (p : String) (pspec v : AgentSpec)
      (n a x : String),
      alookup l p = some pspec → x ≠ a → v.subagents = [] →
      parentLinkOf (aset l p
          { pspec with subagents := pspec.subagents ++ [(n, a)] } ++ [(a, v)]) x
        = parentLinkOf l x := by
  intro l
  induction l with
  | nil => intro p pspec v n a x h _ _; cases h
  | cons q rest ih =>
    intro p pspec v n a x h hx hv
    by_cases hq : q.1 = p
    · simp only [alookup, if_pos hq] at h
      obtain rfl := Option.some.inj h
      simp only [aset, if_pos hq, List.cons_append]
      rw [parentLinkOf_cons, parentLinkOf_cons]
      simp only [find?_link_append_ne x a n hx]
      cases (q.2.subagents.find? (fun na => decide (na.2 = x))).map
          (fun na => (q.1, na.1)) with
      | some r => rfl
      | none =>
        rw [parentLinkOf_append]
        have : parentLinkOf [(a, v)] x = Option.none := by
          rw [parentLinkOf_cons]
          simp [hv, parentLinkOf_nil]
        cases hpl : parentLinkOf rest x with
        | some r => rfl
        | none => simpa [hpl] using this
    · simp only [alookup, if_neg hq] at h
      simp only [aset, if_neg hq, List.cons_append]
      rw [parentLinkOf_cons, parentLinkOf_cons, ih p pspec v n a x h hx hv]

/-- The freshly linked agent's parent link is the new one. -/
theorem parentLinkOf_extend_self :
    ∀ (l : List (String × AgentSpec)) (p : String) (pspec v : AgentSpec)
      (n a : String),
      alookup l p = some pspec →
      (∀ pa ∈ l, ∀ na ∈ pa.2.subagents, na.2 ≠ a) →
      parentLinkOf (aset l p
          { pspec with subagents := pspec.subagents ++ [(n, a)] } ++ [(a, v)]) a
        = some (p, n) := by
  intro l
  induction l with
  | nil => intro p pspec v n a h _; cases h
  | cons q rest ih =>
    intro p pspec v n a h hfresh
    by_cases hq : q.1 = p
    · simp only [alookup, if_pos hq] at h
      obtain rfl := Option.some.inj h
      simp only [aset, if_pos hq, List.cons_append]
      rw [parentLinkOf_cons]
      have hsome : (q.2.subagents ++ [(n, a)]).find? (fun na => decide (na.2 = a))
          = some (n, a) :=
        find?_link_append_self a n q.2.subagents
          (fun na hna => hfresh q (List.mem_cons_self _ _) na hna)
      rw [hsome]
      simp [hq]
    · simp only [alookup, if_neg hq] at h
      simp only [aset, if_neg hq, List.cons_append]
      rw [parentLinkOf_cons]
      have hnone : q.2.subagents.find? (fun na => decide (na.2 = a)) = Option.none := by
        rw [List.find?_eq_none]
        intro na hna
        simpa using hfresh q (List.mem_cons_self _ _) na hna
      rw [hnone]
      exact ih p pspec v n a h
        (fun pa hpa na hna => hfresh pa (List.mem_cons_of_mem _ hpa) na hna)

/-- creationRec depends only on the key, the language model and the parent
link of its agent. -/
theorem creationRec_congr (A B : List (String × AgentSpec)) (i : String)
    (pa pb : String × AgentSpec) (hk : pa.1 = pb.1)
    (hlm : pa.2.language_model = pb.2.language_model)
    (hpl : parentLinkOf A pa.1 = parentLinkOf B pb.1) :
    creationRec A i pa = creationRec B i pb := by
  simp only [creationRec, hk]
  rw [hk] at hpl
  rw [hpl, hlm]

/-- keysOf is the first projection list. -/
theorem keysOf_def (l : List (String × AgentSpec)) : keysOf l = l.map Prod.fst := rfl

/-- Emptying transcripts keeps the keys. -/
theorem keysOf_emptyT (l : List (String × AgentSpec)) : keysOf (emptyT l) = keysOf l := by
  simp [keysOf, emptyT, List.map_map, Function.comp]

/-- Lookup in the transcript-emptied dict. -/
theorem alookup_emptyT :
    ∀ (l : List (String × AgentSpec)) (k : String),
      alookup (emptyT l) k
        = (alookup l k).map (fun v => { v with transcript := [] }) := by
  intro l
  induction l with
  | nil => intro k; rfl
  | cons p rest ih =>
    intro k
    by_cases hk : p.1 = k
    · simp [emptyT, alookup, hk]
    · simp only [emptyT, List.map_cons]
      simp only [alookup, if_neg hk]
      simpa [emptyT] using ih k

/-- Emptying transcripts commutes with setting a key. -/
theorem emptyT_aset :
    ∀ (l : List (String × AgentSpec)) (k : String) (v : AgentSpec),
      emptyT (aset l k v) = aset (emptyT l) k { v with transcript := [] } := by
  intro l
  induction l with
  | nil => intro k v; rfl
  | cons p rest ih =>
    intro k v
    by_cases hk : p.1 = k
    · simp [emptyT, aset, hk]
    · simp only [emptyT, List.map_cons, aset, if_neg hk]
      simpa [emptyT] using ih k v

/-- Emptying transcripts distributes over append. -/
theorem emptyT_append (l l2 : List (String × AgentSpec)) :
    emptyT (l ++ l2) = emptyT l ++ emptyT l2 := by
  simp [emptyT]

/-- A transcript-only change leaves the emptied dict unchanged. -/
theorem emptyT_aset_transcript (l : List (String × AgentSpec)) (q : String)
    (qspec : AgentSpec) (ts : List Msg) (h : alookup l q = some qspec) :
    emptyT (aset l q { qspec with transcript := ts }) = emptyT l :=
  map_aset _ l q _ qspec h rfl

/-- A transcript-only change leaves the serialized creations unchanged. -/
theorem serializeCreations_aset_transcript (l : List (String × AgentSpec))
    (q : String) (qspec : AgentSpec) (ts : List Msg) (i : String)
    (h : alookup l q = some qspec) :
    serializeCreations (aset l q { qspec with transcript := ts }) i
      = serializeCreations l i := by
  unfold serializeCreations
  trans ((aset l q { qspec with transcript := ts }).map (creationRec l i))
  · apply List.map_congr_left
    intro pa _
    exact creationRec_congr _ l i pa pa rfl rfl
      (parentLinkOf_aset_transcript l q qspec ts pa.1 h)
  · exact map_aset _ l q _ qspec h
      (creationRec_congr l l i (q, { qspec with transcript := ts }) (q, qspec)
        rfl rfl rfl)

/-- Creating and linking a fresh agent appends exactly one creation record. -/
theorem serializeCreations_extend (l : List (String × AgentSpec)) (p : String)
    (pspec : AgentSpec) (n a lm i : String)
    (hp : alookup l p = some pspec) (ha : a ∉ keysOf l) (hi : a ≠ i)
    (hfresh : ∀ pa ∈ l, ∀ na ∈ pa.2.subagents, na.2 ≠ a) :
    serializeCreations
        (aset l p { pspec with subagents := pspec.subagents ++ [(n, a)] }
          ++ [(a, ⟨lm, [], []⟩)]) i
      = serializeCreations l i
        ++ [{ event_type := "agent_created", agent := a, name := some n,
              parent := some p, language_model := some lm,
              cause := some (.one "user") }] := by
  unfold serializeCreations
  rw [List.map_append]
  congr 1
  · trans ((aset l p
        { pspec with subagents := pspec.subagents ++ [(n, a)] }).map (creationRec l i))
    · apply List.map_congr_left
      intro pa hpa
      apply creationRec_congr _ l i pa pa rfl rfl
      have hkeys : pa.1 ∈ keysOf l := by
        rw [keysOf_def, ← keys_aset_of_mem l p
          { pspec with subagents := pspec.subagents ++ [(n, a)] }
          (alookup_some_mem l p pspec hp)]
        exact List.mem_map_of_mem Prod.fst hpa
      have hne : pa.1 ≠ a := fun heq => ha (heq ▸ hkeys)
      exact parentLinkOf_extend_ne l p pspec ⟨lm, [], []⟩ n a pa.1 hp hne rfl
    · exact map_aset _ l p _ pspec hp
        (creationRec_congr l l i
          (p, { pspec with subagents := pspec.subagents ++ [(n, a)] }) (p, pspec)
          rfl rfl rfl)
  · have hpl : parentLinkOf
        (aset l p { pspec with subagents := pspec.subagents ++ [(n, a)] }
          ++ [(a, (⟨lm, [], []⟩ : AgentSpec))]) a = some (p, n) :=
      parentLinkOf_extend_self l p pspec ⟨lm, [], []⟩ n a hp hfresh
    simp [creationRec, hi, hpl]

/-- Forall₂ is compatible with append. -/
theorem forall2_append {β γ : Type} (R : β → γ → Prop) :
    ∀ {l l2 : List β} {u u2 : List γ}, List.Forall₂ R l u → List.Forall₂ R l2 u2 →
      List.Forall₂ R (l ++ l2) (u ++ u2) := by
  intro l l2 u u2 h1 h2
  induction h1 with
  | nil => exact h2
  | cons hr _ ih => exact List.Forall₂.cons hr ih

/-- A successful lookup exhibits a member pair. -/
theorem alookup_mem {α : Type} :
    ∀ (l : List (String × α)) (k : String) (v : α),
      alookup l k = some v → (k, v) ∈ l := by
  intro l
  induction l with
  | nil => intro k v h; cases h
  | cons p rest ih =>
    intro k v h
    by_cases hk : p.1 = k
    · simp only [alookup, if_pos hk] at h
      obtain rfl := Option.some.inj h
      obtain rfl := hk
      exact List.mem_cons_self _ _
    · simp only [alookup, if_neg hk] at h
      exact List.mem_cons_of_mem _ (ih k v h)

/-- Setting the same key twice keeps only the second value. -/
theorem aset_aset {α : Type} :
    ∀ (l : List (String × α)) (k : String) (v v2 : α),
      aset (aset l k v) k v2 = aset l k v2 := by
  intro l
  induction l with
  | nil => intro k v v2; simp [aset]
  | cons p rest ih =>
    intro k v v2
    by_cases hk : p.1 = k
    · simp [aset, hk]
    · simp [aset, hk, ih]

/-- Keys of an appended dict. -/
theorem keysOf_append (l l2 : List (String × AgentSpec)) :
    keysOf (l ++ l2) = keysOf l ++ keysOf l2 := by
  simp [keysOf]

/-- Extracting the underlying state from a graph-level equation. -/
theorem graph_some_extract (o : Option LoadState)
    (g : List (String × AgentSpec) × Option String)
    (h : Option.map graphOf o = some g) :
    ∃ s1, o = some s1 ∧ s1.agentspec = g.1 ∧ s1.interlocutorId = g.2 := by
  cases o with
  | none => cases h
  | some s1 =>
    have hg : graphOf s1 = g := Option.some.inj (by simpa [Option.map] using h)
    exact ⟨s1, rfl, congrArg Prod.fst hg, congrArg Prod.snd hg⟩

/-- The invariant only reads the graph part of the replay state. -/
theorem ReachInv_congr (w : WfSt) (s s2 : LoadState)
    (h : graphOf s = graphOf s2) (hinv : ReachInv w s) : ReachInv w s2 := by
  obtain ⟨spec, io, m⟩ := s
  obtain ⟨spec2, io2, m2⟩ := s2
  simp only [graphOf, Prod.mk.injEq] at h
  obtain ⟨rfl, rfl⟩ := h
  exact hinv

/-- Replaying the serialized transcript entries of one agent appends exactly
those messages to that agent's transcript. -/
theorem phaseC_inner :
    ∀ (msgs pre : List Msg) (q : String) (Q : AgentSpec) (σ : LoadState),
      alookup σ.agentspec q = some { Q with transcript := pre } →
      ∃ σ', (msgs.map (entryRec q)).foldlM loadEvent σ = some σ'
        ∧ σ'.agentspec = aset σ.agentspec q { Q with transcript := pre ++ msgs }
        ∧ σ'.interlocutorId = σ.interlocutorId := by
  intro msgs
  induction msgs with
  | nil =>
    intro pre q Q σ hlq
    refine ⟨σ, rfl, ?_, rfl⟩
    rw [List.append_nil]
    exact (aset_self _ _ _ hlq).symm
  | cons m ms ih =>
    intro pre q Q σ hlq
    obtain ⟨ro, co, tc, tci, nm⟩ := m
    have he1 : Option.map graphOf (loadEvent σ (entryRec q ⟨ro, co, tc, tci, nm⟩))
        = some (aset σ.agentspec q
            { Q with transcript := pre ++ [⟨ro, co, tc, tci, nm⟩] },
          σ.interlocutorId) :=
      loadEvent_graph_entry σ (entryRec q ⟨ro, co, tc, tci, nm⟩) ro
        { Q with transcript := pre } rfl rfl hlq
    obtain ⟨σ1, hσ1, hspec1, hio1⟩ := graph_some_extract _ _ he1
    have hlq1 : alookup σ1.agentspec q
        = some { Q with transcript := pre ++ [⟨ro, co, tc, tci, nm⟩] } := by
      rw [hspec1]; exact alookup_aset_self _ _ _
    obtain ⟨σ', hfold, hspec', hio'⟩ := ih (pre ++ [⟨ro, co, tc, tci, nm⟩]) q Q σ1 hlq1
    refine ⟨σ', ?_, ?_, ?_⟩
    · rw [List.map_cons, List.foldlM_cons, hσ1, Option.bind_eq_bind, Option.some_bind]
      exact hfold
    · rw [hspec', hspec1, aset_aset, List.append_assoc]
      rfl
    · rw [hio', hio1]

/-- Replaying all serialized transcript entries turns the empty-transcript
graph into the original graph, agent by agent. -/
theorem phaseC :
    ∀ (rest done : List (String × AgentSpec)) (σ : LoadState),
      σ.agentspec = done ++ emptyT rest →
      (∀ x ∈ keysOf rest, x ∉ keysOf done) →
      (keysOf rest).Nodup →
      ∃ σ', (serializeEntries rest).foldlM loadEvent σ = some σ'
        ∧ σ'.agentspec = done ++ rest
        ∧ σ'.interlocutorId = σ.interlocutorId := by
  intro rest
  induction rest with
  | nil =>
    intro done σ hspec _ _
    exact ⟨σ, rfl, by simpa [emptyT] using hspec, rfl⟩
  | cons pQ rest' ih =>
    intro done σ hspec hdisj hnodup
    obtain ⟨q, Q⟩ := pQ
    have hqd : q ∉ keysOf done := hdisj q (by simp [keysOf])
    have hlq : alookup σ.agentspec q = some { Q with transcript := [] } := by
      rw [hspec, alookup_append_right done _ q (by simpa [keysOf] using hqd)]
      simp [emptyT, alookup]
    obtain ⟨σ1, hf1, hspec1, hio1⟩ := phaseC_inner Q.transcript [] q Q σ hlq
    have hQeta : ({ Q with transcript := [] ++ Q.transcript } : AgentSpec) = Q := by
      cases Q; rfl
    have hspec1' : σ1.agentspec = (done ++ [(q, Q)]) ++ emptyT rest' := by
      rw [hspec1, hQeta, hspec, aset_append_right done _ q Q hqd]
      simp [emptyT, aset]
    have h0 : (q :: keysOf rest').Nodup := hnodup
    have hnd := List.nodup_cons.mp h0
    have hdisj' : ∀ x ∈ keysOf rest', x ∉ keysOf (done ++ [(q, Q)]) := by
      intro x hx
      rw [keysOf_append]
      simp only [List.mem_append]
      rintro (hxd | hxq)
      · exact hdisj x (by simp [keysOf] at hx ⊢; exact Or.inr hx) hxd
      · simp [keysOf] at hxq
        rw [hxq] at hx
        exact hnd.1 hx
    obtain ⟨σ', hf', hspec'', hio'⟩ := ih (done ++ [(q, Q)]) σ1 hspec1' hdisj' hnd.2
    refine ⟨σ', ?_, ?_, ?_⟩
    · have hser : serializeEntries ((q, Q) :: rest')
          = Q.transcript.map (entryRec q) ++ serializeEntries rest' := by
        simp [serializeEntries]
      rw [hser, List.foldlM_append, hf1, Option.bind_eq_bind, Option.some_bind]
      exact hf'
    · rw [hspec'', List.append_assoc]; rfl
    · rw [hio', hio1]

/-- Replaying the creation record of a fresh agent over the transcript-emptied
graph performs the same extension, emptied. -/
theorem loadEvent_graph_extend (l : List (String × AgentSpec)) (p : String)
    (pspec : AgentSpec) (n a lm : String) (σ1 : LoadState)
    (hσ : σ1.agentspec = emptyT l)
    (hp : alookup l p = some pspec) (ha : a ∉ keysOf l) (hpu : p ≠ "user")
    (hn : n ∉ pspec.subagents.map Prod.fst) :
    Option.map graphOf
        (loadEvent σ1
          { event_type := "agent_created", agent := a, name := some n,
            parent := some p, language_model := some lm,
            cause := some (.one "user") })
      = some (emptyT (aset l p
            { pspec with subagents := pspec.subagents ++ [(n, a)] }
          ++ [(a, ⟨lm, [], []⟩)]), σ1.interlocutorId) := by
  have ha1 : a ∉ σ1.agentspec.map Prod.fst := by
    rw [← keysOf_def, hσ, keysOf_emptyT]; exact ha
  have ha1' : a ∉ (emptyT l).map Prod.fst := by
    rw [← keysOf_def, keysOf_emptyT]; exact ha
  have hpk' : p ∈ (emptyT l).map Prod.fst := by
    rw [← keysOf_def, keysOf_emptyT, keysOf_def]
    exact alookup_some_mem _ _ _ hp
  have hlook1 : alookup (aset σ1.agentspec a ⟨lm, [], []⟩) p
      = some { pspec with transcript := [] } := by
    rw [aset_of_not_mem _ _ _ ha1, alookup_append, hσ, alookup_emptyT, hp]
    rfl
  have hg := loadEvent_graph_created_parent σ1
    { event_type := "agent_created", agent := a, name := some n,
      parent := some p, language_model := some lm, cause := some (.one "user") }
    lm n p { pspec with transcript := [] } rfl rfl rfl rfl hpu hlook1
  rw [hg]
  congr 2
  rw [hσ,
    show ({ pspec with transcript := [] } : AgentSpec).subagents = pspec.subagents
      from rfl,
    aset_of_not_mem _ _ _ hn, aset_of_not_mem _ _ _ ha1',
    aset_append_left _ _ _ _ hpk', emptyT_append, emptyT_aset]
  rfl

/-- One event that passes the well-formedness check replays successfully and
preserves the reachability invariant. -/
theorem reach_step (w w' : WfSt) (s : LoadState) (e : LogRecord)
    (hinv : ReachInv w s) (hwf : wfEvent w e = some w') :
    ∃ s', loadEvent s e = some s' ∧ ReachInv w' s' := by
  obtain ⟨hall, hnodup, huser, hclosed, hmatch⟩ := hinv
  rw [wfEvent] at hwf
  by_cases hdig : isDigitString e.message_id = true
  case neg =>
    rw [if_pos (by simpa using hdig)] at hwf
    cases hwf
  rw [if_neg (by simpa using hdig)] at hwf
  by_cases hty : e.event_type = "agent_created"
  case pos =>
    rw [if_pos hty] at hwf
    cases hlmv : e.language_model with
    | none =>
      cases hnv : e.name <;> cases hpv : e.parent <;>
        simp only [hlmv, hnv, hpv] at hwf <;> cases hwf
    | some lm =>
      cases hnv : e.name with
      | none =>
        cases hpv : e.parent <;> simp only [hlmv, hnv, hpv] at hwf <;> cases hwf
      | some nm =>
        cases hpv : e.parent with
        | none => simp only [hlmv, hnv, hpv] at hwf; cases hwf
        | some pr =>
          simp only [hlmv, hnv, hpv] at hwf
          by_cases hfr : e.agent = "user" ∨ (alookup w.created e.agent).isSome = true
          case pos => rw [if_pos hfr] at hwf; cases hwf
          rw [if_neg hfr] at hwf
          push_neg at hfr
          obtain ⟨hau, hwnone'⟩ := hfr
          have hwnone : alookup w.created e.agent = Option.none := by
            cases hA : alookup w.created e.agent with
            | none => rfl
            | some _ => exact absurd (by rw [hA]; rfl) hwnone'
          have hsnone : alookup s.agentspec e.agent = Option.none := by
            rcases alookup_forall2 _ (fun pb pc h => h.1) w.created s.agentspec hall
                e.agent with ⟨_, h2⟩ | ⟨b, c, hb, _, _⟩
            · exact h2
            · rw [hb] at hwnone; cases hwnone
          have hamem : e.agent ∉ keysOf s.agentspec := by
            rw [keysOf_def]; exact (alookup_eq_none _ _).mp hsnone
          by_cases hpru : pr = "user"
          · subst hpru
            rw [if_pos rfl] at hwf
            by_cases hroot : w.hasRoot = true
            · rw [if_pos hroot] at hwf; cases hwf
            rw [if_neg hroot] at hwf
            obtain rfl := Option.some.inj hwf
            cases hio : s.interlocutorId with
            | some i =>
              rw [hio] at hmatch
              exact absurd hmatch.1 hroot
            | none =>
              rw [hio] at hmatch
              obtain ⟨hr0, hempty⟩ := hmatch
              have hg := loadEvent_graph_created_user s e lm nm hty hlmv hnv hpv
              obtain ⟨s1, hs1, hspec1, hio1⟩ := graph_some_extract _ _ hg
              refine ⟨s1, hs1, ?_, ?_, ?_, ?_, ?_⟩
              · have hwc : w.created = [] :=
                  List.forall₂_nil_right_iff.mp (hempty ▸ hall)
                rw [hspec1, hempty, hwc]
                exact List.Forall₂.cons ⟨rfl, rfl⟩ List.Forall₂.nil
              · rw [hspec1, hempty]; simp [keysOf, aset]
              · rw [hspec1, hempty]
                intro hmem
                simp [keysOf, aset] at hmem
                exact hau hmem.symm
              · rw [hspec1, hempty]
                intro pa hpa na hna
                simp [aset] at hpa
                rw [hpa] at hna
                simp at hna
              · rw [hio1, hspec1, hempty]
                refine ⟨rfl, by simp [keysOf, aset], ?_⟩
                simp [serializeCreations, creationRec, loadEvent, graphOf, emptyT,
                  aset, List.foldlM]
          · rw [if_neg hpru] at hwf
            cases hplw : alookup w.created pr with
            | none => simp only [hplw] at hwf; cases hwf
            | some pnames =>
              simp only [hplw] at hwf
              by_cases hnmem : nm ∈ pnames
              · rw [if_pos hnmem] at hwf; cases hwf
              rw [if_neg hnmem] at hwf
              obtain rfl := Option.some.inj hwf
              have hpspec : ∃ pspec, alookup s.agentspec pr = some pspec
                  ∧ pnames = pspec.subagents.map Prod.fst := by
                rcases alookup_forall2 _ (fun pb pc h => h.1) w.created s.agentspec hall
                    pr with ⟨h1, _⟩ | ⟨b, c, hb, hc, hR⟩
                · rw [hplw] at h1; cases h1
                · rw [hplw] at hb
                  obtain rfl := Option.some.inj hb
                  exact ⟨c, hc, hR.2⟩
              obtain ⟨pspec, hps, hpn⟩ := hpspec
              cases hio : s.interlocutorId with
              | none =>
                rw [hio] at hmatch
                rw [hmatch.2] at hps; cases hps
              | some i =>
                rw [hio] at hmatch
                obtain ⟨hr1, hik, hC⟩ := hmatch
                have hane : e.agent ≠ i := fun h => hamem (h ▸ hik)
                have hfreshlinks : ∀ pa ∈ s.agentspec, ∀ na ∈ pa.2.subagents,
                    na.2 ≠ e.agent :=
                  fun pa hpa na hna h => hamem (h ▸ hclosed pa hpa na hna)
                have hamem' : e.agent ∉ s.agentspec.map Prod.fst := by
                  rw [← keysOf_def]; exact hamem
                have hprk : pr ∈ s.agentspec.map Prod.fst :=
                  alookup_some_mem _ _ _ hps
                have hnm' : nm ∉ pspec.subagents.map Prod.fst := by
                  rw [← hpn]; exact hnmem
                have hlook : alookup (aset s.agentspec e.agent ⟨lm, [], []⟩) pr
                    = some pspec := by
                  rw [aset_of_not_mem _ _ _ hamem', alookup_append, hps]
                have hg := loadEvent_graph_created_parent s e lm nm pr pspec hty hlmv
                  hnv hpv hpru hlook
                obtain ⟨s1, hs1, hspec1, hio1⟩ := graph_some_extract _ _ hg
                have hshape : s1.agentspec
                    = aset s.agentspec pr
                        { pspec with subagents := pspec.subagents ++ [(nm, e.agent)] }
                      ++ [(e.agent, ⟨lm, [], []⟩)] := by
                  rw [hspec1, aset_of_not_mem _ _ _ hamem',
                    aset_append_left _ _ _ _ hprk, aset_of_not_mem _ _ _ hnm']
                have hkaset : keysOf (aset s.agentspec pr
                      { pspec with subagents := pspec.subagents ++ [(nm, e.agent)] })
                    = keysOf s.agentspec := by
                  rw [keysOf_def, keysOf_def]
                  exact keys_aset_of_mem _ _ _ hprk
                have hkeys1 : keysOf s1.agentspec = keysOf s.agentspec ++ [e.agent] := by
                  rw [hshape, keysOf_append, hkaset]; rfl
                refine ⟨s1, hs1, ?_, ?_, ?_, ?_, ?_⟩
                · rw [hshape]
                  refine forall2_append _ ?_ (List.Forall₂.cons ⟨rfl, rfl⟩ List.Forall₂.nil)
                  refine forall2_aset _ (fun pb pc h => h.1) _ _ _ _ _ hall ?_
                  intro k0
                  refine ⟨rfl, ?_⟩
                  rw [List.map_append, ← hpn]
                  rfl
                · rw [hkeys1]
                  refine List.Nodup.append hnodup (List.nodup_singleton _) ?_
                  intro x hx1 hx2
                  simp at hx2
                  rw [hx2] at hx1
                  exact hamem hx1
                · rw [hkeys1]
                  intro h
                  rcases List.mem_append.mp h with h1 | h2
                  · exact huser h1
                  · simp at h2
                    exact hau h2.symm
                · intro pa hpa na hna
                  rw [hkeys1]
                  rw [hshape] at hpa
                  rcases List.mem_append.mp hpa with h1 | h2
                  · rcases mem_aset _ _ _ _ h1 with hmem | hval
                    · exact List.mem_append_left _ (hclosed pa hmem na hna)
                    · rw [hval] at hna
                      rcases List.mem_append.mp hna with hn1 | hn2
                      · exact List.mem_append_left _
                          (hclosed (pr, pspec) (alookup_mem _ _ _ hps) na hn1)
                      · simp at hn2
                        rw [hn2]
                        simp
                  · simp at h2
                    rw [h2] at hna
                    simp at hna
                · rw [hio1, hio]
                  refine ⟨hr1, ?_, ?_⟩
                  · rw [hkeys1]
                    exact List.mem_append_left _ hik
                  · rw [hshape,
                      serializeCreations_extend s.agentspec pr pspec nm e.agent lm i
                        hps hamem hane hfreshlinks,
                      List.foldlM_append]
                    obtain ⟨σ1, hσ1, hσspec, hσio⟩ := graph_some_extract _ _ hC
                    rw [hσ1, Option.bind_eq_bind, Option.some_bind]
                    have hg2 := loadEvent_graph_extend s.agentspec pr pspec nm e.agent
                      lm σ1 hσspec hps hamem hpru hnm'
                    obtain ⟨s2, hs2, hspec2, hio2⟩ := graph_some_extract _ _ hg2
                    rw [List.foldlM_cons, hs2, Option.bind_eq_bind, Option.some_bind,
                      List.foldlM_nil]
                    show some (graphOf s2) = _
                    rw [show graphOf s2 = (s2.agentspec, s2.interlocutorId) from rfl,
                      hspec2, hio2, hσio]
  case neg =>
    rw [if_neg hty] at hwf
    by_cases hty2 : e.event_type = "transcript_entry"
    case pos =>
      rw [if_pos hty2] at hwf
      cases hro : e.role with
      | none => simp only [hro] at hwf; cases hwf
      | some ro =>
        simp only [hro] at hwf
        by_cases hisw : (alookup w.created e.agent).isSome = true
        case neg => rw [if_neg (by simpa using hisw)] at hwf; cases hwf
        rw [if_pos (by simpa using hisw)] at hwf
        obtain rfl := Option.some.inj hwf
        obtain ⟨qnames, hlw⟩ := Option.isSome_iff_exists.mp hisw
        rcases alookup_forall2 _ (fun pb pc h => h.1) w.created s.agentspec hall
            e.agent with ⟨h1, _⟩ | ⟨b, c, hb, hc, hR⟩
        · rw [hlw] at h1; cases h1
        · rw [hlw] at hb
          obtain rfl := Option.some.inj hb
          have hg := loadEvent_graph_entry s e ro c hty2 hro hc
          obtain ⟨s1, hs1, hspec1, hio1⟩ := graph_some_extract _ _ hg
          have hkeys1 : keysOf s1.agentspec = keysOf s.agentspec := by
            rw [hspec1, keysOf_def, keysOf_def]
            exact keys_aset_of_mem _ _ _ (alookup_some_mem _ _ _ hc)
          refine ⟨s1, hs1, ?_, ?_, ?_, ?_, ?_⟩
          · rw [hspec1, ← aset_self w.created e.agent qnames hlw]
            refine forall2_aset _ (fun pb pc h => h.1) _ _ _ _ _ hall ?_
            intro k0
            exact ⟨rfl, hR.2⟩
          · rw [hkeys1]; exact hnodup
          · rw [hkeys1]; exact huser
          · intro pa hpa na hna
            rw [hkeys1]
            rw [hspec1] at hpa
            rcases mem_aset _ _ _ _ hpa with hmem | hval
            · exact hclosed pa hmem na hna
            · rw [hval] at hna
              exact hclosed (e.agent, c) (alookup_mem _ _ _ hc) na hna
          · rw [hio1]
            cases hio : s.interlocutorId with
            | none =>
              rw [hio] at hmatch
              rw [hmatch.2] at hc; cases hc
            | some i =>
              rw [hio] at hmatch
              obtain ⟨hr1, hik, hCinv⟩ := hmatch
              refine ⟨hr1, by rw [hkeys1]; exact hik, ?_⟩
              rw [hspec1,
                serializeCreations_aset_transcript s.agentspec e.agent c _ i hc,
                emptyT_aset_transcript s.agentspec e.agent c _ hc]
              exact hCinv
    case neg =>
      rw [if_neg hty2] at hwf
      by_cases hty3 : e.event_type = "fragment"
      case pos =>
        rw [if_pos hty3] at hwf
        obtain rfl := Option.some.inj hwf
        have hg := loadEvent_graph_fragment s e hty3
        obtain ⟨s1, hs1, hspec1, hio1⟩ := graph_some_extract _ _ hg
        refine ⟨s1, hs1, ?_⟩
        refine ReachInv_congr w s s1 ?_ ⟨hall, hnodup, huser, hclosed, hmatch⟩
        show (s.agentspec, s.interlocutorId) = (s1.agentspec, s1.interlocutorId)
        rw [hspec1, hio1]
      case neg =>
        rw [if_neg hty3] at hwf
        cases hwf

/-- Every prefix of a log that passes the well-formedness check replays
successfully and keeps the reachability invariant. -/
theorem reach_master :
    ∀ (log : List LogRecord) (w : WfSt) (s : LoadState), ReachInv w s →
    ∀ w', log.foldlM wfEvent w = some w' →
    ∃ s', log.foldlM loadEvent s = some s' ∧ ReachInv w' s' := by
  intro log
  induction log with
  | nil =>
    intro w s hinv w' hwf
    rw [List.foldlM_nil] at hwf
    cases hwf
    exact ⟨s, rfl, hinv⟩
  | cons e rest ih =>
    intro w s hinv w' hwf
    rw [List.foldlM_cons] at hwf
    cases hei : wfEvent w e with
    | none => rw [hei, Option.bind_eq_bind, Option.none_bind] at hwf; cases hwf
    | some w1 =>
      rw [hei, Option.bind_eq_bind, Option.some_bind] at hwf
      obtain ⟨s1, hs1, hinv1⟩ := reach_step w w1 s e hinv hei
      obtain ⟨s', hs', hinv'⟩ := ih w1 s1 hinv1 w' hwf
      refine ⟨s', ?_, hinv'⟩
      rw [List.foldlM_cons, hs1, Option.bind_eq_bind, Option.some_bind]
      exact hs'

/-- C1: for every well-formed event log, Session.load replays every line in
file order and reconstructs the Agent graph (every agent with its language
model, transcript and subagent links, plus the interlocutor); serializing
that reconstruction through Session._write and loading it again yields the
identical graph and interlocutor (idempotent round trip). -/
theorem claim_C1_round_trip (log : List LogRecord) (res : LoadResult)
    (hwf : wellFormedLog log = true) (hload : Session.load log = some res) :
    ∃ res2, Session.load (serialize res) = some res2
      ∧ res2.agents = res.agents ∧ res2.interlocutor = res.interlocutor := by
  unfold wellFormedLog at hwf
  cases hW : log.foldlM wfEvent ⟨[], false⟩ with
  | none => rw [hW] at hwf; cases hwf
  | some wfin =>
    rw [hW] at hwf
    have hinv0 : ReachInv ⟨[], false⟩ ⟨[], Option.none, -1⟩ := by
      refine ⟨List.Forall₂.nil, List.nodup_nil, ?_, ?_, rfl, rfl⟩
      · simp [keysOf]
      · intro pa hpa; cases hpa
    obtain ⟨sfin, hsfin, hinv⟩ :=
      reach_master log ⟨[], false⟩ ⟨[], Option.none, -1⟩ hinv0 wfin hW
    obtain ⟨hall, hnodup, huser, hclosed, hmatch⟩ := hinv
    unfold Session.load at hload
    rw [hsfin] at hload
    simp only [Option.bind_eq_bind, Option.some_bind] at hload
    cases hio : sfin.interlocutorId with
    | none =>
      rw [hio] at hload
      simp only [Option.bind_eq_bind, Option.none_bind] at hload
      cases hload
    | some i =>
      rw [hio] at hload
      simp only [Option.bind_eq_bind, Option.some_bind] at hload
      rw [hio] at hmatch
      obtain ⟨hr1, hik, hC⟩ := hmatch
      obtain ⟨vi, hvi⟩ := alookup_isSome_of_mem sfin.agentspec i
        (by rw [← keysOf_def]; exact hik)
      rw [hvi] at hload
      simp only [Option.some_bind] at hload
      obtain rfl := Option.some.inj hload
      have hser : serialize ⟨sfin.agentspec, i, sfin.maxMessageId + 1⟩
          = List.zipWith (fun r j => { r with message_id := toString j })
              (serializeCreations sfin.agentspec i ++ serializeEntries sfin.agentspec)
              (List.range' 0 (serializeCreations sfin.agentspec i
                ++ serializeEntries sfin.agentspec).length) := by
        unfold serialize
        rw [(writeMany_spec _ (⟨0, []⟩ : SessionState)).2.2]
        rfl
      have hgraph : Option.map graphOf
          ((serializeCreations sfin.agentspec i
            ++ serializeEntries sfin.agentspec).foldlM loadEvent
              (⟨[], Option.none, -1⟩ : LoadState))
          = some (sfin.agentspec, some i) := by
        rw [List.foldlM_append]
        obtain ⟨σC, hσC, hσCspec, hσCio⟩ := graph_some_extract _ _ hC
        rw [hσC, Option.bind_eq_bind, Option.some_bind]
        obtain ⟨σF, hσF, hσFspec, hσFio⟩ := phaseC sfin.agentspec [] σC
          (by rw [hσCspec]; rfl) (fun x _ h => by simp [keysOf] at h) hnodup
        rw [hσF]
        show some (graphOf σF) = _
        rw [show graphOf σF = (σF.agentspec, σF.interlocutorId) from rfl,
          hσFspec, hσFio, hσCio]
        rfl
      have hstamp : Option.map graphOf
          ((List.zipWith (fun r j => { r with message_id := toString j })
              (serializeCreations sfin.agentspec i ++ serializeEntries sfin.agentspec)
              (List.range' 0 (serializeCreations sfin.agentspec i
                ++ serializeEntries sfin.agentspec).length)).foldlM loadEvent
            (⟨[], Option.none, -1⟩ : LoadState))
          = some (sfin.agentspec, some i) := by
        rw [foldlM_graph_congr _ _ (stamped_sameGraph _ 0) _ _ rfl]
        exact hgraph
      obtain ⟨sR, hsR, hsRspec, hsRio⟩ := graph_some_extract _ _ hstamp
      refine ⟨⟨sfin.agentspec, i, sR.maxMessageId + 1⟩, ?_, rfl, rfl⟩
      unfold Session.load
      rw [hser, hsR]
      simp only [Option.bind_eq_bind, Option.some_bind]
      rw [hsRio]
      simp only [Option.some_bind]
      rw [hsRspec, hvi]
      simp only [Option.some_bind]

/-- Concrete round trip: a two-line log (primary agent creation plus one
transcript entry) loads, serializes and reloads to the same graph. -/
theorem claim_C1_witness :
    wellFormedLog
        [{ message_id := "0", event_type := "agent_created", agent := "primary",
           name := some "Primary", parent := some "user",
           language_model := some "m", cause := some (Cause.one "user") },
         { message_id := "1", event_type := "transcript_entry", agent := "primary",
           role := some "user", content := some "hi" }] = true
    ∧ ∃ res2, Session.load (serialize ⟨[("primary",
          ⟨"m", [⟨"user", some "hi", Option.none, Option.none, Option.none⟩], []⟩)],
          "primary", 2⟩) = some res2
        ∧ res2.agents = [("primary",
            ⟨"m", [⟨"user", some "hi", Option.none, Option.none, Option.none⟩], []⟩)]
        ∧ res2.interlocutor = "primary" :=
  ⟨by decide, claim_C1_round_trip
    [{ message_id := "0", event_type := "agent_created", agent := "primary",
       name := some "Primary", parent := some "user",
       language_model := some "m", cause := some (Cause.one "user") },
     { message_id := "1", event_type := "transcript_entry", agent := "primary",
       role := some "user", content := some "hi" }]
    ⟨[("primary",
        ⟨"m", [⟨"user", some "hi", Option.none, Option.none, Option.none⟩], []⟩)],
      "primary", 2⟩
    (by decide) (by decide)⟩

end SmallChat
